import Mathlib

/-!
Verification of the Aurora build system core against its specification.

This file gives a shallow embedding, in Lean 4, of the parts of the Aurora
repository (crates core, engine and parser) that the examined claims talk
about, and proves or refutes each claim against that embedding.

Modelling conventions:
* Rust `HashMap` values are modelled as association lists (`List (k × v)`)
  queried with `List.lookup`; insertion replaces the binding of an existing
  key, like `HashMap::insert`.
* Machine integers (`i32`, `i64`) are modelled as `Int`, with explicit range
  checks where the code performs a fallible conversion.
* The filesystem is modelled as an association list from path strings to a
  `FileState` (absent, unreadable, or a readable byte content); `Path::exists`
  is true for both readable and unreadable present entries, while `fs::read`
  succeeds only on readable ones.
* The BLAKE3 hash is kept abstract: definitions take an arbitrary function
  `blake3 : List Nat → String` (bytes to hex digest) as a parameter; no claim
  here depends on properties of the concrete hash.
* Shell command execution is kept abstract: the executor model takes an
  oracle `cmdRun : EState → String → Option CommandResult × EState` mapping
  the current world and a command string to either a spawn failure (`none`)
  or an exit code with captured output, together with the successor world.
-/

namespace Aurora

/-! ## Core data model (crates/core) -/

/-- Condition from core/src/condition.rs: a recursive sum type gating beam
execution. -/
inductive Condition where
  | fileExists (path : String)
  | envSet (name : String)
  | envEquals (name : String) (value : String)
  | command (run : String) (expect_success : Bool)
  | and (conditions : List Condition)
  | or (conditions : List Condition)
  | not (condition : Condition)

/-- Command from core/src/beam.rs: a single shell command string plus an
optional description. -/
structure Command where
  command : String
  description : Option String
  deriving Repr, DecidableEq

/-- Constructor Command::new: no description. -/
def Command.new (command : String) : Command :=
  { command := command, description := none }

/-- RunBlock from core/src/beam.rs. -/
structure RunBlock where
  commands : List Command
  shell : Option String
  working_dir : Option String
  fail_fast : Bool
  deriving Repr, DecidableEq

/-- Constructor RunBlock::new: the commands, `fail_fast` defaulting to true. -/
def RunBlock.new (commands : List Command) : RunBlock :=
  { commands := commands, shell := none, working_dir := none, fail_fast := true }

/-- Constructor RunBlock::from_strings. -/
def RunBlock.from_strings (commands : List String) : RunBlock :=
  RunBlock.new (commands.map Command.new)

/-- Hook from core/src/hook.rs. -/
structure Hook where
  commands : List String
  shell : Option String
  working_dir : Option String
  fail_on_error : Bool
  deriving Repr, DecidableEq

/-- Constructor Hook::new: `fail_on_error` defaults to true. -/
def Hook.new (commands : List String) : Hook :=
  { commands := commands, shell := none, working_dir := none, fail_on_error := true }

/-- Beam from core/src/beam.rs. Paths are modelled as strings. -/
structure Beam where
  name : String
  description : Option String
  depends_on : List String
  condition : Option Condition
  env : List (String × String)
  pre_hooks : List Hook
  run : Option RunBlock
  post_hooks : List Hook
  inputs : List String
  outputs : List String

/-- Constructor Beam::new. -/
def Beam.new (name : String) : Beam :=
  { name := name, description := none, depends_on := [], condition := none,
    env := [], pre_hooks := [], run := none, post_hooks := [],
    inputs := [], outputs := [] }

/-- Variable from core/src/variable.rs. -/
structure Variable where
  name : String
  default : Option String
  description : Option String
  deriving Repr, DecidableEq

/-- Constructor Variable::new. -/
def Variable.new (name : String) : Variable :=
  { name := name, default := none, description := none }

/-- Span for error reporting, from core/src/error.rs. -/
structure ErrSpan where
  start : Nat
  stop : Nat
  line : Nat
  column : Nat
  deriving Repr, DecidableEq

/-- AuroraError from core/src/error.rs.  The `source` payloads of the io-based
variants are modelled as strings. -/
inductive AuroraError where
  | beamfileNotFound (path : String)
  | fileRead (path : String) (cause : String)
  | parse (message : String) (span : Option ErrSpan)
  | beamNotFound (name : String)
  | cycleDetected (description : String)
  | variableNotFound (name : String)
  | conditionFailed (message : String)
  | commandFailed (command : String) (exit_code : Option Int) (stderr : Option String)
  | interpolation (message : String)
  | plugin (message : String)
  | ioError (cause : String)
  deriving Repr, DecidableEq

/- Note on the `interpolation` variant: core/src/interpolation.rs constructs
`AuroraError::Interpolation { message }` and §7 of the specification lists it
among the error kinds, although the copy of core/src/error.rs in this
snapshot does not declare the variant; the embedding includes it. -/

/-- Rendering of AuroraError produced by the thiserror derive (the strings of
the error attributes in core/src/error.rs); the executor stores
`e.to_string()` in the failed list of its report. -/
def AuroraError.toMessage : AuroraError → String
  | .beamfileNotFound p => "Beamfile not found in " ++ p ++ " or any parent directory"
  | .fileRead p _ => "Failed to read file: " ++ p
  | .parse m _ => "Parse error: " ++ m
  | .beamNotFound n => "Beam '" ++ n ++ "' not found"
  | .cycleDetected d => "Dependency cycle detected: " ++ d
  | .variableNotFound n => "Variable '" ++ n ++ "' not found"
  | .conditionFailed m => "Condition evaluation failed: " ++ m
  | .commandFailed c _ _ => "Command execution failed: " ++ c
  | .interpolation m => "Interpolation error: " ++ m
  | .plugin m => "Plugin error: " ++ m
  | .ioError c => "IO error: " ++ c

/-! ## Association-list counterpart of HashMap::insert -/

/-- Insert-or-replace on an association list, modelling `HashMap::insert`:
an existing binding of the key is replaced in place, otherwise the new
binding is appended. -/
def assocInsert {α : Type} (m : List (String × α)) (k : String) (v : α) :
    List (String × α) :=
  match m with
  | [] => [(k, v)]
  | (k', v') :: rest =>
      if k' = k then (k, v) :: rest else (k', v') :: assocInsert rest k v

/-! ## Interpolation (core/src/interpolation.rs) -/

/-- Models Rust `char::is_alphanumeric` (Unicode Alphabetic or Numeric).
The model is exact for code points below U+0100: ASCII alphanumerics plus the
Latin-1 characters ªµ²³¹º¼½¾ and the letters U+00C0..U+00FF minus × and ÷.
Code points at U+0100 and above are conservatively classified false; every
theorem below that relies on a character being rejected restricts itself to
characters below U+0100, where the model agrees with Rust. -/
def rustIsAlphanumeric (c : Char) : Bool :=
  c.isAlphanum
  || c.toNat = 0xAA || c.toNat = 0xB5 || c.toNat = 0xBA
  || c.toNat = 0xB2 || c.toNat = 0xB3 || c.toNat = 0xB9
  || (0xBC ≤ c.toNat && c.toNat ≤ 0xBE)
  || (0xC0 ≤ c.toNat && c.toNat ≤ 0xFF && c.toNat ≠ 0xD7 && c.toNat ≠ 0xF7)

/-- Characters accepted inside a variable reference by parse_variable_ref:
`c.is_alphanumeric() || c == '_' || c == '.'`. -/
def isRefChar (c : Char) : Bool :=
  rustIsAlphanumeric c || c = '_' || c = '.'

/-- VariableRef from core/src/interpolation.rs. -/
inductive VariableRef where
  | variable (name : String)
  | environment (name : String)
  | beamName
  | extra (key : String)
  deriving Repr, DecidableEq

/-- InterpolationContext from core/src/interpolation.rs.  The `vars` field
models the `variables` map (the name `variables` is a reserved word in Lean);
the `env` field models the ambient process environment read by
`std::env::var` in `get_env`. -/
structure InterpolationContext where
  vars : List (String × String)
  env : List (String × String)
  beam_name : Option String
  extra : List (String × String)
  deriving Repr, DecidableEq

/-- Empty interpolation context (InterpolationContext::new, with an empty
process environment). -/
def InterpolationContext.empty : InterpolationContext :=
  { vars := [], env := [], beam_name := none, extra := [] }

/-- Classification step at the end of parse_variable_ref: strip the
`var.` / `env.` / `ctx.` prefixes, recognise `beam.name`, or fall back to the
shorthand variable reference. -/
def classifyRef (name : String) : VariableRef :=
  if name.startsWith "var." then .variable (name.drop 4)
  else if name.startsWith "env." then .environment (name.drop 4)
  else if name = "beam.name" then .beamName
  else if name.startsWith "ctx." then .extra (name.drop 4)
  else .variable name

/-- resolve_variable from core/src/interpolation.rs. -/
def resolve_variable (ctx : InterpolationContext) :
    VariableRef → Except AuroraError String
  | .variable name =>
      match ctx.vars.lookup name with
      | some v => .ok v
      | none => .error (.interpolation ("Undefined variable: " ++ name))
  | .environment name =>
      match ctx.env.lookup name with
      | some v => .ok v
      | none => .error (.interpolation ("Undefined environment variable: " ++ name))
  | .beamName =>
      match ctx.beam_name with
      | some v => .ok v
      | none => .error (.interpolation "Beam name not available in this context")
  | .extra key =>
      match ctx.extra.lookup key with
      | some v => .ok v
      | none => .error (.interpolation ("Undefined context key: " ++ key))

/-- Completion of parse_variable_ref once the scanned name is known: the
empty-name check followed by classification and resolution. -/
def resolveRefName (ctx : InterpolationContext) (acc : List Char) :
    Except AuroraError String :=
  if acc.isEmpty then .error (.interpolation "Empty variable reference")
  else resolve_variable ctx (classifyRef (String.mk acc))

/-- Splice of a resolved reference value into the interpolation of the rest
of the input: a resolution error propagates (the `?` operator in
`interpolate`), otherwise the value is pushed in front of the continued
result. -/
def refSplice (v : Except AuroraError String)
    (k : Except AuroraError (List Char)) : Except AuroraError (List Char) :=
  match v with
  | .error e => .error e
  | .ok s => k.map (fun r => s.data ++ r)

mutual

/-- Main loop of `interpolate`: walk the characters, handling `$$`, `${…}`
and stray `$`.  `interpRef` is the scanning loop of `parse_variable_ref`
fused with the resolution of the scanned reference; the two together are the
body of `interpolate` from core/src/interpolation.rs. -/
def interpAux (ctx : InterpolationContext) : List Char → Except AuroraError (List Char)
  | [] => .ok []
  | c :: cs =>
      if c = '$' then
        match cs with
        | '$' :: cs' => (interpAux ctx cs').map (fun r => '$' :: r)
        | '{' :: cs' => interpRef ctx [] cs'
        | [] => (interpAux ctx []).map (fun r => '$' :: r)
        | c2 :: cs' => (interpAux ctx (c2 :: cs')).map (fun r => '$' :: r)
      else (interpAux ctx cs).map (fun r => c :: r)
termination_by l => l.length

/-- Scanning loop of parse_variable_ref: consume reference characters until a
closing brace (consumed) or the end of input (the Rust loop then simply ends,
treating the reference as complete), rejecting any other character; then
resolve the reference and append its value. -/
def interpRef (ctx : InterpolationContext) (acc : List Char) :
    List Char → Except AuroraError (List Char)
  | [] => refSplice (resolveRefName ctx acc) (.ok [])
  | c :: cs =>
      if c = '}' then refSplice (resolveRefName ctx acc) (interpAux ctx cs)
      else if isRefChar c then interpRef ctx (acc ++ [c]) cs
      else .error (.interpolation
        ("Invalid character '" ++ String.mk [c] ++ "' in variable reference"))
termination_by l => l.length

end

/-- interpolate from core/src/interpolation.rs. -/
def interpolate (input : String) (ctx : InterpolationContext) :
    Except AuroraError String :=
  (interpAux ctx input.data).map String.mk

/-- contains_variables from core/src/interpolation.rs: scan for a `$`
immediately followed by `{` (the peeked character is not consumed). -/
def contains_variables_aux : List Char → Bool
  | [] => false
  | c :: cs =>
      if c = '$' then
        match cs with
        | '{' :: _ => true
        | _ => contains_variables_aux cs
      else contains_variables_aux cs

/-- contains_variables on strings. -/
def contains_variables (input : String) : Bool :=
  contains_variables_aux input.data

/-! ## Build cache (engine/src/cache.rs) -/

/-- State of a path in the modelled filesystem: `absent` (`Path::exists`
false), `unreadable` (the path exists but `fs::read` fails, e.g. a directory
or a permission error), or a readable file with byte content. -/
inductive FileState where
  | absent
  | unreadable
  | file (content : List Nat)
  deriving Repr, DecidableEq

/-- A filesystem: an association list from absolute path strings to states;
paths not listed are absent. -/
def FileSys : Type := List (String × FileState)

/-- Read the state of a path. -/
def FileSys.read (fs : FileSys) (p : String) : FileState :=
  (List.lookup p fs).getD .absent

/-- Models `Path::exists`. -/
def FileSys.pathExists (fs : FileSys) (p : String) : Bool :=
  fs.read p ≠ .absent

/-- Models `working_dir.join(path)` for the string paths of this model. -/
def pathJoin (wd p : String) : String :=
  wd ++ "/" ++ p

/-- CacheEntry from engine/src/cache.rs; the hash maps are association
lists keyed by the (relative) input and output paths. -/
structure CacheEntry where
  beam_name : String
  input_hashes : List (String × String)
  output_hashes : List (String × String)
  command_hash : String
  timestamp : Nat
  deriving Repr, DecidableEq

/-- The in-memory entries of BuildCache: an association list from beam name
to entry, modelling the `entries` HashMap. -/
def CacheEntries : Type := List (String × CacheEntry)

/-- UTF-8 bytes of a string, as `str::as_bytes` produces them. -/
def strBytes (s : String) : List Nat :=
  s.toUTF8.toList.map UInt8.toNat

/-- BuildCache::hash_file: read the file at the path and hash its bytes;
`none` models the Err of a failed read.  The hash function is the abstract
parameter `blake3`. -/
def hash_file (blake3 : List Nat → String) (fs : FileSys) (p : String) :
    Option String :=
  match fs.read p with
  | .file content => some (blake3 content)
  | _ => none

/-- BuildCache::hash_commands: BLAKE3 of the beam's run-block command strings
joined by a newline, of the empty string when the beam has no run block. -/
def hash_commands (blake3 : List Nat → String) (beam : Beam) : String :=
  let commands_str : String :=
    match beam.run with
    | some r => String.intercalate "\n" (r.commands.map (fun c => c.command))
    | none => ""
  blake3 (strBytes commands_str)

/-- Per-input check of BuildCache::is_up_to_date: hashing the file at
`working_dir.join(input)` must succeed and the result must equal the entry's
stored input hash for that path. -/
def inputOk (blake3 : List Nat → String) (fs : FileSys) (wd : String)
    (entry : CacheEntry) (input : String) : Bool :=
  match hash_file blake3 fs (pathJoin wd input) with
  | none => false
  | some h =>
      match entry.input_hashes.lookup input with
      | some cached => cached = h
      | none => false

/-- Per-output check of BuildCache::is_up_to_date: the path must exist, hash
successfully, and match the entry's stored output hash. -/
def outputOk (blake3 : List Nat → String) (fs : FileSys) (wd : String)
    (entry : CacheEntry) (output : String) : Bool :=
  if ¬ fs.pathExists (pathJoin wd output) then false
  else
    match hash_file blake3 fs (pathJoin wd output) with
    | none => false
    | some h =>
        match entry.output_hashes.lookup output with
        | some cached => cached = h
        | none => false

/-- BuildCache::is_up_to_date from engine/src/cache.rs.  The early-return
loops of the Rust code are rendered as `List.all` conjunctions. -/
def is_up_to_date (blake3 : List Nat → String) (entries : CacheEntries)
    (beam : Beam) (wd : String) (fs : FileSys) : Bool :=
  match List.lookup beam.name entries with
  | none => false
  | some entry =>
      entry.command_hash = hash_commands blake3 beam
      && beam.inputs.all (inputOk blake3 fs wd entry)
      && beam.outputs.all (outputOk blake3 fs wd entry)

/-- BuildCache::record from engine/src/cache.rs: hash all
currently-readable inputs and outputs, silently skipping files whose read
fails, and insert a fresh entry for the beam (the subsequent save to disk is
not part of the in-memory model; the Ok path is assumed).  `now` is the unix
timestamp taken from the system clock. -/
def record (blake3 : List Nat → String) (entries : CacheEntries) (beam : Beam)
    (wd : String) (fs : FileSys) (now : Nat) : CacheEntries :=
  let input_hashes := beam.inputs.filterMap
    (fun i => (hash_file blake3 fs (pathJoin wd i)).map (fun h => (i, h)))
  let output_hashes := beam.outputs.filterMap
    (fun o => (hash_file blake3 fs (pathJoin wd o)).map (fun h => (o, h)))
  let entry : CacheEntry :=
    { beam_name := beam.name
      input_hashes := input_hashes
      output_hashes := output_hashes
      command_hash := hash_commands blake3 beam
      timestamp := now }
  assocInsert entries beam.name entry

/-! ## Dependency graph (engine/src/dag.rs) -/

/-- The beam dependency graph, abstracted to what dag.rs reads from the
Beamfile: for each beam name the list of names it depends on.  An edge of
the petgraph `DiGraph` runs from dependency to dependent. -/
def BeamGraph : Type := List (String × List String)

/-- Dependencies (incoming neighbors) of a node, as recorded when
DependencyGraph::from_beamfile added one edge per entry of `depends_on`. -/
def depsOf (g : BeamGraph) (n : String) : List String :=
  (List.lookup n g).getD []

/-- Single dependency edge: `d` is a dependency of `b` (edge d → b in the
petgraph graph, meaning d must run before b). -/
def DepEdge (g : BeamGraph) (d b : String) : Prop :=
  d ∈ depsOf g b

/-- The node `b` is required for target `t`: it is `t` itself or a
transitive dependency, i.e. reachable from `t` by repeatedly stepping to a
dependency.  This is the set collected by
DependencyGraph::collect_ancestors. -/
def Requires (g : BeamGraph) (t b : String) : Prop :=
  Relation.ReflTransGen (fun x y => y ∈ depsOf g x) t b

/-- The inner placement step of parallel_levels: extend the level buckets
with empty levels until index `k` exists, then push the name onto bucket
`k`.  This mirrors the while-push loop of dag.rs. -/
def placeAt : List (List String) → Nat → String → List (List String)
  | [], 0, n => [[n]]
  | [], k + 1, n => [] :: placeAt [] k n
  | l :: ls, 0, n => (l ++ [n]) :: ls
  | l :: ls, k + 1, n => l :: placeAt ls k n

/-- The level computed for a beam from the already-assigned levels of its
dependencies: the maximum assigned dependency level plus one, or zero when
no dependency has an assigned level (`filter_map … .max().map(|l| l+1)
.unwrap_or(0)` in dag.rs). -/
def maxDepLevel (g : BeamGraph) (assigned : List (String × Nat)) (n : String) :
    Nat :=
  match ((depsOf g n).filterMap (fun d => List.lookup d assigned)).max? with
  | none => 0
  | some l => l + 1

/-- State of the parallel_levels fold: the buckets built so far and the map
from processed beam name to its level (`beam_levels` in dag.rs). -/
structure PLState where
  levels : List (List String)
  beam_levels : List (String × Nat)

/-- One iteration of the parallel_levels loop over the topological order. -/
def plStep (g : BeamGraph) (s : PLState) (n : String) : PLState :=
  let k := maxDepLevel g s.beam_levels n
  { levels := placeAt s.levels k n
    beam_levels := (n, k) :: s.beam_levels }

/-- DependencyGraph::parallel_levels from engine/src/dag.rs, parameterised
by the topological order of the required set that
`topological_order(target)` returns (the petgraph toposort of the whole
graph filtered to the required set).  The final state after folding the
order; `parallel_levels` itself is its `levels` component. -/
def plRun (g : BeamGraph) (order : List String) : PLState :=
  order.foldl (plStep g) ⟨[], []⟩

/-- The level buckets produced by parallel_levels for a given topological
order of the required set. -/
def parallel_levels (g : BeamGraph) (order : List String) : List (List String) :=
  (plRun g order).levels

/-- Characterisation of the list returned by
DependencyGraph::topological_order(target): it enumerates, without
duplicates, exactly the required set of the target, and lists every
dependency before its dependent.  Any topological sort of the acyclic graph
filtered to the required set satisfies this. -/
structure IsTopoOrder (g : BeamGraph) (target : String) (order : List String) :
    Prop where
  nodup : order.Nodup
  mem_iff : ∀ b, b ∈ order ↔ Requires g target b
  before : ∀ b ∈ order, ∀ d ∈ depsOf g b, d ∈ order →
    List.indexOf d order < List.indexOf b order

/-! ## Runner and executor (engine/src/runner.rs, engine/src/executor.rs)

The world visible to the executor is modelled as an `EState`: the
filesystem, the in-memory cache entries, and an opaque component `ext`
standing for everything else a child process can affect.  Shell execution
is a parameter: an oracle mapping the current world, the command string,
the working directory and the environment to either a spawn failure
(`Except.error` with the io error text) or a `CommandResult`, plus the
successor world.  Events emitted to the optional callback are not modelled;
no claim below mentions them. -/

/-- CommandResult from engine/src/runner.rs. -/
structure CommandResult where
  exit_code : Int
  stdout : String
  stderr : String
  deriving Repr, DecidableEq

/-- The world state threaded through execution. -/
structure EState where
  fs : FileSys
  entries : CacheEntries
  ext : Nat

/-- Oracle for spawning one shell command: world, command string, working
directory, environment ↦ spawn failure or result, and the successor
world. -/
def CmdOracle : Type :=
  EState → String → String → List (String × String) → Except String CommandResult × EState

/-- The immutable data of CommandRunner that the model keeps: its default
working directory and default environment (the shell itself is abstracted
into the oracle). -/
structure CommandRunner where
  working_dir : String
  env : List (String × String)

/-- Merge of environments via `HashMap::extend`: every binding of the
second map is inserted into (a copy of) the first. -/
def envExtend (base extra : List (String × String)) : List (String × String) :=
  extra.foldl (fun m kv => assocInsert m kv.1 kv.2) base

/-- The command loop of CommandRunner::execute_run_block: run the commands
in order; a spawn failure is an immediate error; a non-zero exit code is an
error only when `fail_fast` is set.  Returns the error (if any) together
with the world state reached. -/
def runCommands (cmdRun : CmdOracle) (wd : String) (env : List (String × String))
    (fail_fast : Bool) : List Command → EState → Option AuroraError × EState
  | [], st => (none, st)
  | c :: cs, st =>
      match cmdRun st c.command wd env with
      | (.error msg, st') =>
          (some (.commandFailed c.command none (some msg)), st')
      | (.ok r, st') =>
          if r.exit_code ≠ 0 && fail_fast then
            (some (.commandFailed c.command (some r.exit_code) (some r.stderr)), st')
          else runCommands cmdRun wd env fail_fast cs st'

/-- CommandRunner::execute_run_block: choose the run block's working
directory if set (else the runner's default), merge the runner's
environment with the extra one, and iterate the commands. -/
def execute_run_block (cmdRun : CmdOracle) (runner : CommandRunner)
    (run : RunBlock) (extra_env : List (String × String)) (st : EState) :
    Option AuroraError × EState :=
  let wd := run.working_dir.getD runner.working_dir
  let merged := envExtend runner.env extra_env
  runCommands cmdRun wd merged run.fail_fast run.commands st

mutual

/-- evaluate_condition from engine/src/executor.rs.  `penv` models the
process environment read by `std::env::var`; a `Command` condition runs via
the runner in the executor's working directory with an empty extra
environment, and a spawn failure yields `!expect_success`. -/
def evaluate_condition (cmdRun : CmdOracle) (penv : List (String × String))
    (wd : String) : Condition → EState → Bool × EState
  | .fileExists p, st => (st.fs.pathExists (pathJoin wd p), st)
  | .envSet n, st => ((List.lookup n penv).isSome, st)
  | .envEquals n v, st =>
      (match List.lookup n penv with
       | some x => x = v
       | none => false, st)
  | .command run expect, st =>
      match cmdRun st run wd [] with
      | (.ok r, st') => ((decide (r.exit_code = 0) = expect : Bool), st')
      | (.error _, st') => (!expect, st')
  | .and cs, st => evalAnd cmdRun penv wd cs st
  | .or cs, st => evalOr cmdRun penv wd cs st
  | .not c, st =>
      let (b, st') := evaluate_condition cmdRun penv wd c st
      (!b, st')

/-- Short-circuiting left-to-right loop of the `And` arm. -/
def evalAnd (cmdRun : CmdOracle) (penv : List (String × String)) (wd : String) :
    List Condition → EState → Bool × EState
  | [], st => (true, st)
  | c :: cs, st =>
      let (b, st') := evaluate_condition cmdRun penv wd c st
      if b then evalAnd cmdRun penv wd cs st' else (false, st')

/-- Short-circuiting left-to-right loop of the `Or` arm. -/
def evalOr (cmdRun : CmdOracle) (penv : List (String × String)) (wd : String) :
    List Condition → EState → Bool × EState
  | [], st => (false, st)
  | c :: cs, st =>
      let (b, st') := evaluate_condition cmdRun penv wd c st
      if b then (true, st') else evalOr cmdRun penv wd cs st'

end

/-- SkipReason from engine/src/executor.rs. -/
inductive SkipReason where
  | cached
  | conditionFalse
  deriving Repr, DecidableEq

/-- BeamResult from engine/src/executor.rs. -/
inductive BeamResult where
  | executed
  | skipped (reason : SkipReason)
  deriving Repr, DecidableEq

/-- The configuration fields of ExecutorState that execute_beam_inner
reads. -/
structure ExecCfg where
  working_dir : String
  use_cache : Bool
  dry_run : Bool

/-- The hook loop of execute_beam_inner: each hook's command strings are
wrapped into a RunBlock via `RunBlock::new` (so with the default
`fail_fast = true`; the hook's own `fail_on_error` flag is not consulted)
and run with the beam's env. -/
def runHooks (cmdRun : CmdOracle) (runner : CommandRunner)
    (env : List (String × String)) : List Hook → EState → Option AuroraError × EState
  | [], st => (none, st)
  | h :: hs, st =>
      match execute_run_block cmdRun runner
          (RunBlock.new (h.commands.map Command.new)) env st with
      | (some e, st') => (some e, st')
      | (none, st') => runHooks cmdRun runner env hs st'

/-- execute_beam_inner from engine/src/executor.rs: look up the beam, check
the cache (when `use_cache`), evaluate the condition, stop early in
`dry_run`, then run pre-hooks, the main run block and post-hooks, and
finally record the cache entry (when `use_cache`).  The returned state is
the world reached, also on failure. -/
def execute_beam_inner (blake3 : List Nat → String) (cmdRun : CmdOracle)
    (penv : List (String × String)) (runner : CommandRunner) (cfg : ExecCfg)
    (beams : List (String × Beam)) (now : Nat) (beam_name : String)
    (st : EState) : Except AuroraError BeamResult × EState :=
  match List.lookup beam_name beams with
  | none => (.error (.beamNotFound beam_name), st)
  | some beam =>
      if cfg.use_cache && is_up_to_date blake3 st.entries beam cfg.working_dir st.fs then
        (.ok (.skipped .cached), st)
      else
        let condStep : Bool × EState :=
          match beam.condition with
          | some c => evaluate_condition cmdRun penv cfg.working_dir c st
          | none => (true, st)
        let st1 := condStep.2
        if ¬ condStep.1 then (.ok (.skipped .conditionFalse), st1)
        else if cfg.dry_run then (.ok .executed, st1)
        else
          match runHooks cmdRun runner beam.env beam.pre_hooks st1 with
          | (some e, st2) => (.error e, st2)
          | (none, st2) =>
              let mainStep : Option AuroraError × EState :=
                match beam.run with
                | some r => execute_run_block cmdRun runner r beam.env st2
                | none => (none, st2)
              match mainStep with
              | (some e, st3) => (.error e, st3)
              | (none, st3) =>
                  match runHooks cmdRun runner beam.env beam.post_hooks st3 with
                  | (some e, st4) => (.error e, st4)
                  | (none, st4) =>
                      let newEntries := record blake3 st4.entries beam cfg.working_dir st4.fs now
                      let st5 :=
                        if cfg.use_cache then { st4 with entries := newEntries }
                        else st4
                      (.ok .executed, st5)

/-- ExecutionReport from engine/src/executor.rs (duration not modelled). -/
structure ExecReport where
  executed : List String
  skipped : List String
  failed : List (String × String)
  deriving Repr, DecidableEq

/-- The empty shared report. -/
def ExecReport.empty : ExecReport :=
  { executed := [], skipped := [], failed := [] }

/-- execute_beam from engine/src/executor.rs: run the inner logic and
append the beam to the matching report list (`failed` stores
`e.to_string()`). -/
def processBeam (blake3 : List Nat → String) (cmdRun : CmdOracle)
    (penv : List (String × String)) (runner : CommandRunner) (cfg : ExecCfg)
    (beams : List (String × Beam)) (now : Nat) (acc : ExecReport × EState)
    (name : String) : ExecReport × EState :=
  let (report, st) := acc
  match execute_beam_inner blake3 cmdRun penv runner cfg beams now name st with
  | (.ok .executed, st') =>
      ({ report with executed := report.executed ++ [name] }, st')
  | (.ok (.skipped _), st') =>
      ({ report with skipped := report.skipped ++ [name] }, st')
  | (.error e, st') =>
      ({ report with failed := report.failed ++ [(name, e.toMessage)] }, st')

/-- One level of Executor::execute.  In the Rust code all beams of a level
are spawned before any is joined and each appends exactly one entry to the
shared report; the fold is the sequential rendering of that (the claims
below consume only which beams land in which list, which is independent of
the interleaving). -/
def processLevel (blake3 : List Nat → String) (cmdRun : CmdOracle)
    (penv : List (String × String)) (runner : CommandRunner) (cfg : ExecCfg)
    (beams : List (String × Beam)) (now : Nat) (level : List String)
    (acc : ExecReport × EState) : ExecReport × EState :=
  level.foldl (processBeam blake3 cmdRun penv runner cfg beams now) acc

/-- Executor::execute from engine/src/executor.rs: walk the plan's levels
in order, stopping before any level that begins while `failed` is already
non-empty. -/
def executeLevels (blake3 : List Nat → String) (cmdRun : CmdOracle)
    (penv : List (String × String)) (runner : CommandRunner) (cfg : ExecCfg)
    (beams : List (String × Beam)) (now : Nat) :
    List (List String) → ExecReport × EState → ExecReport × EState
  | [], acc => acc
  | level :: rest, acc =>
      if acc.1.failed ≠ [] then acc
      else executeLevels blake3 cmdRun penv runner cfg beams now rest
        (processLevel blake3 cmdRun penv runner cfg beams now level acc)

/-- Top-level execute over a plan, starting from the empty report. -/
def execute (blake3 : List Nat → String) (cmdRun : CmdOracle)
    (penv : List (String × String)) (runner : CommandRunner) (cfg : ExecCfg)
    (beams : List (String × Beam)) (now : Nat) (plan : List (List String))
    (st : EState) : ExecReport × EState :=
  executeLevels blake3 cmdRun penv runner cfg beams now plan (ExecReport.empty, st)

/-! ## Beamfile (core/src/beamfile.rs) -/

/-- Beamfile from core/src/beamfile.rs.  The `vars` field models the
`variables` HashMap (the name `variables` is a reserved word in Lean); both
maps are association lists with HashMap insert-replace semantics. -/
structure Beamfile where
  path : String
  vars : List (String × Variable)
  beams : List (String × Beam)
  default_beam : Option String

/-- Constructor Beamfile::new. -/
def Beamfile.new (path : String) : Beamfile :=
  { path := path, vars := [], beams := [], default_beam := none }

/-- Beamfile::add_variable: `self.variables.insert(variable.name.clone(), variable)`. -/
def Beamfile.add_variable (bf : Beamfile) (v : Variable) : Beamfile :=
  { bf with vars := assocInsert bf.vars v.name v }

/-- Beamfile::add_beam: `self.beams.insert(beam.name.clone(), beam)`. -/
def Beamfile.add_beam (bf : Beamfile) (b : Beam) : Beamfile :=
  { bf with beams := assocInsert bf.beams b.name b }

/-- Beamfile::set_default_beam. -/
def Beamfile.set_default_beam (bf : Beamfile) (name : String) : Beamfile :=
  { bf with default_beam := some name }

/-- Beamfile::get_beam. -/
def Beamfile.get_beam (bf : Beamfile) (name : String) : Option Beam :=
  List.lookup name bf.beams

/-! ## Parser AST (parser/src/ast.rs) -/

/-- AstValue from parser/src/ast.rs.  A Block holds the HashMap obtained by
collecting the parsed key/value pairs; the model stores the association
list produced by inserting the pairs in order (so a later duplicate key
replaces an earlier one, as HashMap collection does). -/
inductive AstValue where
  | string (s : String)
  | number (n : Int)
  | bool (b : Bool)
  | array (items : List AstValue)
  | block (fields : List (String × AstValue))

/-- AstValue::as_string. -/
def AstValue.asString : AstValue → Option String
  | .string s => some s
  | _ => none

/-- AstValue::as_bool. -/
def AstValue.asBool : AstValue → Option Bool
  | .bool b => some b
  | _ => none

/-- AstVariable from parser/src/ast.rs (body is the collected map). -/
structure AstVariable where
  name : String
  body : List (String × AstValue)

/-- AstCondition from parser/src/ast.rs. -/
inductive AstCondition where
  | fileExists (path : String)
  | envSet (name : String)
  | envEquals (name : String) (value : String)
  | command (run : String) (expect_success : Bool)
  | and (conditions : List AstCondition)
  | or (conditions : List AstCondition)
  | not (condition : AstCondition)

/-- AstHook from parser/src/ast.rs. -/
structure AstHook where
  commands : List String
  shell : Option String
  working_dir : Option String
  fail_on_error : Option Bool

/-- AstRun from parser/src/ast.rs. -/
structure AstRun where
  commands : List String
  shell : Option String
  working_dir : Option String
  fail_fast : Option Bool

/-- AstBeamItem from parser/src/ast.rs. -/
inductive AstBeamItem where
  | description (s : String)
  | dependsOn (deps : List String)
  | condition (c : AstCondition)
  | env (pairs : List (String × String))
  | preHook (h : AstHook)
  | run (r : AstRun)
  | postHook (h : AstHook)
  | inputs (paths : List String)
  | outputs (paths : List String)

/-- AstBeam from parser/src/ast.rs. -/
structure AstBeam where
  name : String
  body : List AstBeamItem

/-- AstItem from parser/src/ast.rs. -/
inductive AstItem where
  | variable (v : AstVariable)
  | beam (b : AstBeam)
  | default (name : String)

/-- AstBeamfile from parser/src/ast.rs. -/
structure AstBeamfile where
  items : List AstItem

/-! ## Nom combinators (parser/src/combinators.rs)

Parsers run over a `List Char` and produce `Option (value × rest)`; `none`
models a recoverable nom error (no parser of this grammar uses
`Err::Failure`, so `alt` backtracking is plain `Option.orElse`).  The nom
loop combinators `many0` and `separated_list0` carry an explicit fuel and
reproduce nom's zero-consumption guards; the top-level wrappers pass fuel
that exceeds the input length, which the loops (consuming at least one
character per iteration) never exhaust. -/

/-- Result of a parser over the remaining input. -/
abbrev PRes (α : Type) : Type := Option (α × List Char)

/-- Characters accepted by nom `multispace1`: space, tab, carriage return,
line feed. -/
def isMultispace (c : Char) : Bool :=
  c = ' ' || c = '\t' || c = '\r' || c = '\n'

/-- Fueled loop of the `ws` combinator; each iteration consumes at least
one character, so fuel exceeding the input length never runs out. -/
def wsCharsF : Nat → List Char → List Char
  | 0, l => l
  | _ + 1, [] => []
  | fuel + 1, c :: cs =>
      if isMultispace c then wsCharsF fuel cs
      else if c = '#' then wsCharsF fuel (cs.dropWhile (fun x => x ≠ '\n'))
      else c :: cs

/-- The `ws` combinator: `many0(alt(multispace1, comment))`, consuming any
run of whitespace and `#`-to-end-of-line comments.  Both alternatives
consume at least one character, so the many0 guard never fires and the
combinator never fails; it is modelled as a total function on the input. -/
def wsChars (l : List Char) : List Char :=
  wsCharsF (l.length + 1) l

/-- Expect one exact character (nom `char`). -/
def pChar (c : Char) : List Char → PRes Unit
  | [] => none
  | x :: xs => if x = c then some ((), xs) else none

/-- Expect a literal keyword (nom `tag`): succeeds on any input having the
tag as a prefix, consuming exactly the tag. -/
def pTag (s : String) (l : List Char) : PRes Unit :=
  if s.data.isPrefixOf l then some ((), l.drop s.data.length) else none

/-- Nom `eof`: succeeds only on empty input. -/
def pEof : List Char → PRes Unit
  | [] => some ((), [])
  | _ => none

/-- Nom `multispace1`: at least one whitespace character. -/
def pMultispace1 (l : List Char) : PRes Unit :=
  match l with
  | c :: cs =>
      if isMultispace c then some ((), cs.dropWhile isMultispace) else none
  | [] => none

/-- Models Rust `char::is_alphabetic` with the same scope as
`rustIsAlphanumeric`: exact below U+0100 (ASCII letters plus ªµº and
U+00C0..U+00FF minus × and ÷), conservatively false above. -/
def rustIsAlphabetic (c : Char) : Bool :=
  c.isAlpha
  || c.toNat = 0xAA || c.toNat = 0xB5 || c.toNat = 0xBA
  || (0xC0 ≤ c.toNat && c.toNat ≤ 0xFF && c.toNat ≠ 0xD7 && c.toNat ≠ 0xF7)

/-- The identifier parser: `take_while1(is_alphabetic || '_')` followed by
`take_while(is_alphanumeric || '_')`, recognised as one string. -/
def identifier (l : List Char) : PRes String :=
  match l with
  | c :: cs =>
      if rustIsAlphabetic c || c = '_' then
        let firstRun := cs.takeWhile (fun x => rustIsAlphabetic x || x = '_')
        let rest1 := cs.dropWhile (fun x => rustIsAlphabetic x || x = '_')
        let secondRun := rest1.takeWhile (fun x => rustIsAlphanumeric x || x = '_')
        let rest2 := rest1.dropWhile (fun x => rustIsAlphanumeric x || x = '_')
        some (String.mk (c :: firstRun ++ secondRun), rest2)
      else none
  | [] => none

/-- Decoding of the escape alternatives of `string_literal`:
backslash, quote, n, r, t. -/
def escDecode : Char → Option Char
  | '\\' => some '\\'
  | '"' => some '"'
  | 'n' => some '\n'
  | 'r' => some '\r'
  | 't' => some '\t'
  | _ => none

/-- Nom `escaped_transform(none_of("\\\""), '\\', …)`: consume ordinary
characters (anything but backslash and quote) and escape sequences,
stopping with success at a quote (or end of input) and failing on an
invalid or unterminated escape. -/
def escapedTransform : List Char → Option (List Char × List Char)
  | [] => some ([], [])
  | c :: cs =>
      if c = '"' then some ([], c :: cs)
      else if c = '\\' then
        match cs with
        | e :: cs' =>
            match escDecode e with
            | some d => (escapedTransform cs').map (fun p => (d :: p.1, p.2))
            | none => none
        | [] => none
      else (escapedTransform cs).map (fun p => (c :: p.1, p.2))

/-- The string_literal parser: a double quote, an optional escaped body,
and a closing double quote.  The `opt` around `escaped_transform` turns its
failure into an empty body without consumption, after which the closing
quote fails on the offending character, as in the Rust code. -/
def string_literal (l : List Char) : PRes String :=
  match l with
  | '"' :: r =>
      let body : List Char × List Char :=
        match escapedTransform r with
        | some p => p
        | none => ([], r)
      match body.2 with
      | '"' :: r' => some (String.mk body.1, r')
      | _ => none
  | _ => none

/-- The number_literal parser: an optional minus sign, one or more ASCII
digits, and a checked conversion to `i64` (map_res on `str::parse`). -/
def number_literal (l : List Char) : PRes Int :=
  let (neg, l1) : Bool × List Char :=
    match l with
    | '-' :: r => (true, r)
    | _ => (false, l)
  match l1 with
  | c :: cs =>
      if c.isDigit then
        let digits := c :: cs.takeWhile Char.isDigit
        let rest := cs.dropWhile Char.isDigit
        let v : Nat := digits.foldl (fun acc d => acc * 10 + (d.toNat - 48)) 0
        if neg then
          if v ≤ 9223372036854775808 then some (-(v : Int), rest) else none
        else
          if v ≤ 9223372036854775807 then some ((v : Int), rest) else none
      else none
  | [] => none

/-- The bool_literal parser: `tag("true")` or `tag("false")`. -/
def bool_literal (l : List Char) : PRes Bool :=
  match pTag "true" l with
  | some (_, r) => some (true, r)
  | none =>
      match pTag "false" l with
      | some (_, r) => some (false, r)
      | none => none

/-- Wrap a parser with whitespace handling on both sides (`ws_wrap`). -/
def wsWrap {α : Type} (p : List Char → PRes α) (l : List Char) : PRes α :=
  match p (wsChars l) with
  | some (a, r) => some (a, wsChars r)
  | none => none

/-- Nom `many0` with its zero-consumption guard (an inner success that
consumes nothing aborts with an error) and explicit fuel. -/
def pMany0 {α : Type} (p : List Char → PRes α) : Nat → List Char → PRes (List α)
  | 0, _ => none
  | fuel + 1, l =>
      match p l with
      | none => some ([], l)
      | some (a, l1) =>
          if l1.length = l.length then none
          else
            match pMany0 p fuel l1 with
            | none => none
            | some (as_, l2) => some (a :: as_, l2)

/-- The separator closure used by both array parsers: whitespace, an
optional comma, whitespace; it always succeeds. -/
def arrSep (l : List Char) : List Char :=
  let l1 := wsChars l
  let l2 := match l1 with
    | ',' :: r => r
    | _ => l1
  wsChars l2

/-- Nom `separated_list0` with the `arrSep` separator, reproducing nom's
behaviour: a failing first item yields the empty list; after a successful
separator a failing item ends the loop at the position before the
separator; a separator-plus-item pair that consumes nothing is an error. -/
def sepListLoop {α : Type} (p : List Char → PRes α) :
    Nat → List α → List Char → PRes (List α)
  | 0, _, _ => none
  | fuel + 1, acc, l =>
      match p (arrSep l) with
      | none => some (acc, l)
      | some (a, l2) =>
          if l2.length = l.length then none
          else sepListLoop p fuel (acc ++ [a]) l2

/-- Entry of `separated_list0`. -/
def sepList {α : Type} (p : List Char → PRes α) (fuel : Nat) (l : List Char) :
    PRes (List α) :=
  match p l with
  | none => some ([], l)
  | some (a, l1) => sepListLoop p fuel [a] l1

/-- The string_array parser: bracketed, comma/whitespace separated string
literals with an optional trailing comma. -/
def string_array (l : List Char) : Option (List String × List Char) := do
  let (_, l) ← pChar '[' l
  let l := wsChars l
  let (items, l) ← sepList string_literal (l.length + 1) l
  let l := wsChars l
  let l := match l with
    | ',' :: r => r
    | _ => l
  let l := wsChars l
  let (_, l) ← pChar ']' l
  some (items, l)

mutual

/-- The ast_value parser: `alt` over bool, number, string, array and block,
in the order of the Rust code. -/
def astValueF : Nat → List Char → PRes AstValue
  | 0, _ => none
  | fuel + 1, l =>
      match bool_literal l with
      | some (b, r) => some (.bool b, r)
      | none =>
      match number_literal l with
      | some (n, r) => some (.number n, r)
      | none =>
      match string_literal l with
      | some (s, r) => some (.string s, r)
      | none =>
      match arrayValueF fuel l with
      | some (items, r) => some (.array items, r)
      | none =>
      match blockValueF fuel l with
      | some (fields, r) => some (.block fields, r)
      | none => none

/-- The array_value parser: bracketed, separator-separated ast_values with
an optional trailing comma. -/
def arrayValueF : Nat → List Char → Option (List AstValue × List Char)
  | 0, _ => none
  | fuel + 1, l => do
      let (_, l) ← pChar '[' l
      let l := wsChars l
      let (items, l) ← sepList (astValueF fuel) fuel l
      let l := wsChars l
      let l := match l with
        | ',' :: r => r
        | _ => l
      let l := wsChars l
      let (_, l) ← pChar ']' l
      some (items, l)

/-- The block_value parser: braced key/value pairs collected into a map. -/
def blockValueF : Nat → List Char → Option (List (String × AstValue) × List Char)
  | 0, _ => none
  | fuel + 1, l => do
      let (_, l) ← pChar '{' l
      let l := wsChars l
      let (pairs, l) ← pMany0 (wsWrap (keyValuePairF fuel)) fuel l
      let l := wsChars l
      let (_, l) ← pChar '}' l
      some (pairs.foldl (fun m kv => assocInsert m kv.1 kv.2) [], l)

/-- The key_value_pair parser: identifier, equals sign, ast_value. -/
def keyValuePairF : Nat → List Char → Option ((String × AstValue) × List Char)
  | 0, _ => none
  | fuel + 1, l => do
      let (key, l) ← identifier l
      let l := wsChars l
      let (_, l) ← pChar '=' l
      let l := wsChars l
      let (v, l) ← astValueF fuel l
      some ((key, v), l)

end

/-- Fuel that the loops and the value nesting of an input can never
exhaust: each unit of nesting or loop iteration consumes at least one
character and costs at most two units of fuel. -/
def astFuel (l : List Char) : Nat := 2 * l.length + 4

/-- ast_value at adequate fuel. -/
def ast_value (l : List Char) : PRes AstValue := astValueF (astFuel l) l

/-- block_value at adequate fuel. -/
def block_value (l : List Char) : PRes (List (String × AstValue)) :=
  blockValueF (astFuel l) l

/-- key_value_pair at adequate fuel. -/
def key_value_pair (l : List Char) : PRes (String × AstValue) :=
  keyValuePairF (astFuel l) l

/-- Parse `description = "…"`. -/
def description_field (l : List Char) : Option (String × List Char) := do
  let (_, l) ← pTag "description" l
  let l := wsChars l
  let (_, l) ← pChar '=' l
  let l := wsChars l
  string_literal l

/-- Parse `depends_on = ["a", "b"]`. -/
def depends_on_field (l : List Char) : Option (List String × List Char) := do
  let (_, l) ← pTag "depends_on" l
  let l := wsChars l
  let (_, l) ← pChar '=' l
  let l := wsChars l
  string_array l

/-- Parse `inputs = ["f1", "f2"]`. -/
def inputs_field (l : List Char) : Option (List String × List Char) := do
  let (_, l) ← pTag "inputs" l
  let l := wsChars l
  let (_, l) ← pChar '=' l
  let l := wsChars l
  string_array l

/-- Parse `outputs = ["f1", "f2"]`. -/
def outputs_field (l : List Char) : Option (List String × List Char) := do
  let (_, l) ← pTag "outputs" l
  let l := wsChars l
  let (_, l) ← pChar '=' l
  let l := wsChars l
  string_array l

/-- Parse `KEY = "value"` inside an env block. -/
def env_pair (l : List Char) : Option ((String × String) × List Char) := do
  let (key, l) ← identifier l
  let l := wsChars l
  let (_, l) ← pChar '=' l
  let l := wsChars l
  let (v, l) ← string_literal l
  some ((key, v), l)

/-- Parse `env { KEY = "value" … }`, collecting the pairs into a map. -/
def env_block (l : List Char) : Option (List (String × String) × List Char) := do
  let (_, l) ← pTag "env" l
  let l := wsChars l
  let (_, l) ← pChar '{' l
  let l := wsChars l
  let (pairs, l) ← pMany0 (wsWrap env_pair) (l.length + 1) l
  let l := wsChars l
  let (_, l) ← pChar '}' l
  some (pairs.foldl (fun m kv => assocInsert m kv.1 kv.2) [], l)

/-- Parse `file_exists = "path"`. -/
def condition_file_exists (l : List Char) : Option (AstCondition × List Char) := do
  let (_, l) ← pTag "file_exists" l
  let l := wsChars l
  let (_, l) ← pChar '=' l
  let l := wsChars l
  let (path, l) ← string_literal l
  some (.fileExists path, l)

/-- Parse `env_set = "VAR"`. -/
def condition_env_set (l : List Char) : Option (AstCondition × List Char) := do
  let (_, l) ← pTag "env_set" l
  let l := wsChars l
  let (_, l) ← pChar '=' l
  let l := wsChars l
  let (name, l) ← string_literal l
  some (.envSet name, l)

/-- Parse `env_equals { name = "VAR" value = "val" }`; missing or
non-string entries default to the empty string. -/
def condition_env_equals (l : List Char) : Option (AstCondition × List Char) := do
  let (_, l) ← pTag "env_equals" l
  let l := wsChars l
  let (block, l) ← block_value l
  let name := ((List.lookup "name" block).bind AstValue.asString).getD ""
  let value := ((List.lookup "value" block).bind AstValue.asString).getD ""
  some (.envEquals name value, l)

/-- Parse the inner condition: alt over file_exists, env_set, env_equals
(no surface syntax produces the other AstCondition variants). -/
def condition_inner (l : List Char) : Option (AstCondition × List Char) :=
  (condition_file_exists l).orElse (fun _ =>
    (condition_env_set l).orElse (fun _ => condition_env_equals l))

/-- Parse `condition { … }`. -/
def condition_block (l : List Char) : Option (AstCondition × List Char) := do
  let (_, l) ← pTag "condition" l
  let l := wsChars l
  let (_, l) ← pChar '{' l
  let l := wsChars l
  let (c, l) ← condition_inner l
  let l := wsChars l
  let (_, l) ← pChar '}' l
  some (c, l)

/-- Fill an AstHook from the parsed key/value pairs of a hook body, in
order; unknown keys are ignored. -/
def hookFromFields (fields : List (String × AstValue)) : AstHook :=
  fields.foldl
    (fun hook kv =>
      if kv.1 = "commands" then
        match kv.2 with
        | .array arr =>
            { hook with commands := arr.filterMap (fun v =>
                match v with
                | .string s => some s
                | _ => none) }
        | _ => hook
      else if kv.1 = "shell" then { hook with shell := kv.2.asString }
      else if kv.1 = "working_dir" then { hook with working_dir := kv.2.asString }
      else if kv.1 = "fail_on_error" then { hook with fail_on_error := kv.2.asBool }
      else hook)
    { commands := [], shell := none, working_dir := none, fail_on_error := none }

/-- Parse the body of a hook block: braced key/value pairs (kept as the
parsed sequence, not collected) folded into an AstHook. -/
def hook_body (l : List Char) : Option (AstHook × List Char) := do
  let (_, l) ← pChar '{' l
  let l := wsChars l
  let (fields, l) ← pMany0 (wsWrap key_value_pair) (l.length + 1) l
  let l := wsChars l
  let (_, l) ← pChar '}' l
  some (hookFromFields fields, l)

/-- Parse `pre_hook { … }`. -/
def pre_hook_block (l : List Char) : Option (AstHook × List Char) := do
  let (_, l) ← pTag "pre_hook" l
  let l := wsChars l
  hook_body l

/-- Parse `post_hook { … }`. -/
def post_hook_block (l : List Char) : Option (AstHook × List Char) := do
  let (_, l) ← pTag "post_hook" l
  let l := wsChars l
  hook_body l

/-- Fill an AstRun from the parsed key/value pairs of a run body, in order;
unknown keys are ignored. -/
def runFromFields (fields : List (String × AstValue)) : AstRun :=
  fields.foldl
    (fun run kv =>
      if kv.1 = "commands" then
        match kv.2 with
        | .array arr =>
            { run with commands := arr.filterMap (fun v =>
                match v with
                | .string s => some s
                | _ => none) }
        | _ => run
      else if kv.1 = "shell" then { run with shell := kv.2.asString }
      else if kv.1 = "working_dir" then { run with working_dir := kv.2.asString }
      else if kv.1 = "fail_fast" then { run with fail_fast := kv.2.asBool }
      else run)
    { commands := [], shell := none, working_dir := none, fail_fast := none }

/-- Parse `run { … }`. -/
def run_block (l : List Char) : Option (AstRun × List Char) := do
  let (_, l) ← pTag "run" l
  let l := wsChars l
  let (_, l) ← pChar '{' l
  let l := wsChars l
  let (fields, l) ← pMany0 (wsWrap key_value_pair) (l.length + 1) l
  let l := wsChars l
  let (_, l) ← pChar '}' l
  some (runFromFields fields, l)

/-- Parse one item inside a beam block: alt in the order of the Rust
code. -/
def beam_item (l : List Char) : Option (AstBeamItem × List Char) :=
  ((description_field l).map (fun p => (AstBeamItem.description p.1, p.2))).orElse (fun _ =>
  ((depends_on_field l).map (fun p => (AstBeamItem.dependsOn p.1, p.2))).orElse (fun _ =>
  ((condition_block l).map (fun p => (AstBeamItem.condition p.1, p.2))).orElse (fun _ =>
  ((env_block l).map (fun p => (AstBeamItem.env p.1, p.2))).orElse (fun _ =>
  ((pre_hook_block l).map (fun p => (AstBeamItem.preHook p.1, p.2))).orElse (fun _ =>
  ((run_block l).map (fun p => (AstBeamItem.run p.1, p.2))).orElse (fun _ =>
  ((post_hook_block l).map (fun p => (AstBeamItem.postHook p.1, p.2))).orElse (fun _ =>
  ((inputs_field l).map (fun p => (AstBeamItem.inputs p.1, p.2))).orElse (fun _ =>
  (outputs_field l).map (fun p => (AstBeamItem.outputs p.1, p.2))))))))))

/-- Parse `beam "name" { … }`. -/
def beam_block (l : List Char) : Option (AstBeam × List Char) := do
  let (_, l) ← pTag "beam" l
  let (_, l) ← pMultispace1 l
  let (name, l) ← string_literal l
  let l := wsChars l
  let (_, l) ← pChar '{' l
  let l := wsChars l
  let (body, l) ← pMany0 (wsWrap beam_item) (l.length + 1) l
  let l := wsChars l
  let (_, l) ← pChar '}' l
  some ({ name := name, body := body }, l)

/-- Parse `variable "name" { … }`. -/
def variable_block (l : List Char) : Option (AstVariable × List Char) := do
  let (_, l) ← pTag "variable" l
  let (_, l) ← pMultispace1 l
  let (name, l) ← string_literal l
  let l := wsChars l
  let (body, l) ← block_value l
  some ({ name := name, body := body }, l)

/-- Parse `default = "beam_name"`. -/
def default_beam (l : List Char) : Option (String × List Char) := do
  let (_, l) ← pTag "default" l
  let l := wsChars l
  let (_, l) ← pChar '=' l
  let l := wsChars l
  string_literal l

/-- Parse one top-level item: variable block, beam block, or default
declaration, in the order of the Rust code. -/
def beamfile_item (l : List Char) : Option (AstItem × List Char) :=
  ((variable_block l).map (fun p => (AstItem.variable p.1, p.2))).orElse (fun _ =>
  ((beam_block l).map (fun p => (AstItem.beam p.1, p.2))).orElse (fun _ =>
  (default_beam l).map (fun p => (AstItem.default p.1, p.2))))

/-- Parse a complete Beamfile: leading whitespace, the items, trailing
whitespace, end of input. -/
def beamfileP (l : List Char) : Option (AstBeamfile × List Char) := do
  let l := wsChars l
  let (items, l) ← pMany0 (wsWrap beamfile_item) (l.length + 1) l
  let l := wsChars l
  let (_, l) ← pEof l
  some ({ items := items }, l)

/-! ## AST to Beamfile conversion (parser/src/parser.rs) -/

/-- convert_variable from parser/src/parser.rs. -/
def convert_variable (ast : AstVariable) : Variable :=
  let v := Variable.new ast.name
  let v :=
    match (List.lookup "default" ast.body).bind AstValue.asString with
    | some d => { v with default := some d }
    | none => v
  match (List.lookup "description" ast.body).bind AstValue.asString with
  | some d => { v with description := some d }
  | none => v

mutual

/-- convert_condition from parser/src/parser.rs. -/
def convert_condition : AstCondition → Condition
  | .fileExists path => .fileExists path
  | .envSet name => .envSet name
  | .envEquals name value => .envEquals name value
  | .command run expect_success => .command run expect_success
  | .and conditions => .and (convertConditionList conditions)
  | .or conditions => .or (convertConditionList conditions)
  | .not condition => .not (convert_condition condition)

/-- Mapping of convert_condition over a list of children. -/
def convertConditionList : List AstCondition → List Condition
  | [] => []
  | c :: cs => convert_condition c :: convertConditionList cs

end

/-- convert_hook from parser/src/parser.rs: Hook::new then the optional
overrides (defaults keep `fail_on_error = true`). -/
def convert_hook (ast : AstHook) : Hook :=
  let hook := Hook.new ast.commands
  let hook :=
    match ast.shell with
    | some s => { hook with shell := some s }
    | none => hook
  let hook :=
    match ast.working_dir with
    | some d => { hook with working_dir := some d }
    | none => hook
  match ast.fail_on_error with
  | some f => { hook with fail_on_error := f }
  | none => hook

/-- convert_run from parser/src/parser.rs: RunBlock::from_strings then the
optional overrides (defaults keep `fail_fast = true`). -/
def convert_run (ast : AstRun) : RunBlock :=
  let run := RunBlock.from_strings ast.commands
  let run :=
    match ast.shell with
    | some s => { run with shell := some s }
    | none => run
  let run :=
    match ast.working_dir with
    | some d => { run with working_dir := some d }
    | none => run
  match ast.fail_fast with
  | some f => { run with fail_fast := f }
  | none => run

/-- convert_beam from parser/src/parser.rs: fold the beam items over
Beam::new in order (later single-valued items overwrite earlier ones;
hooks accumulate). -/
def convert_beam (ast : AstBeam) : Beam :=
  ast.body.foldl
    (fun beam item =>
      match item with
      | .description desc => { beam with description := some desc }
      | .dependsOn deps => { beam with depends_on := deps }
      | .condition cond => { beam with condition := some (convert_condition cond) }
      | .env env => { beam with env := env }
      | .preHook hook => { beam with pre_hooks := beam.pre_hooks ++ [convert_hook hook] }
      | .run run => { beam with run := some (convert_run run) }
      | .postHook hook => { beam with post_hooks := beam.post_hooks ++ [convert_hook hook] }
      | .inputs inputs => { beam with inputs := inputs }
      | .outputs outputs => { beam with outputs := outputs })
    (Beam.new ast.name)

/-- convert_ast from parser/src/parser.rs: fold the items into a fresh
Beamfile via add_variable / add_beam / set_default_beam; it never fails. -/
def convert_ast (ast : AstBeamfile) (path : String) : Except AuroraError Beamfile :=
  .ok (ast.items.foldl
    (fun bf item =>
      match item with
      | .variable v => bf.add_variable (convert_variable v)
      | .beam b => bf.add_beam (convert_beam b)
      | .default name => bf.set_default_beam name)
    (Beamfile.new path))

/-- parse_beamfile from parser/src/parser.rs: run the nom beamfile parser
and convert the AST.  Any nom failure is mapped to
`AuroraError::Parse { message: format!("Parse error: {:?}", e), span: None }`;
the Debug rendering of the nom error is not reproduced by the model (the
placeholder below stands for it), but the span is faithfully `none`. -/
def parse_beamfile (content : String) (path : String) : Except AuroraError Beamfile :=
  match beamfileP content.data with
  | none => .error (.parse "Parse error: (nom error)" none)
  | some (ast, _) => convert_ast ast path

/-! ## Auxiliary definitions used by the theorem statements -/

/-- Length of the trailing run of `$` characters of a list, computed from
the front: a `$` head extends the run only when the whole remainder is that
run. -/
def dTail : List Char → Nat
  | [] => 0
  | c :: cs => if c = '$' ∧ dTail cs = cs.length then cs.length + 1 else dTail cs

/-- A `${` occurrence is live (actually starts a reference) exactly when
the preceding text ends in an even run of `$` characters, so that the `$`
before the brace is not consumed by a `$$` escape. -/
def EvenDollarTail (l : List Char) : Prop :=
  dTail l % 2 = 0

/-- A reference tail on which parse_variable_ref fails: either a character
that is neither a reference character nor the closing brace appears before
any closing brace, or the reference closes immediately (empty name). -/
def BadTail (t : List Char) : Prop :=
  (∃ body c rest, t = body ++ c :: rest
      ∧ (∀ x ∈ body, isRefChar x = true) ∧ isRefChar c = false ∧ c ≠ '}')
  ∨ ∃ rest, t = '}' :: rest

/-- The result is an Interpolation error. -/
def IsIErr (r : Except AuroraError (List Char)) : Prop :=
  ∃ msg, r = .error (.interpolation msg)

mutual

/-- A condition that contains no `Command` variant, so that its evaluation
spawns no process and leaves the world unchanged. -/
def condPure : Condition → Bool
  | .fileExists _ => true
  | .envSet _ => true
  | .envEquals _ _ => true
  | .command _ _ => false
  | .and cs => condPureList cs
  | .or cs => condPureList cs
  | .not c => condPure c

/-- condPure over the children of And / Or. -/
def condPureList : List Condition → Bool
  | [] => true
  | c :: cs => condPure c && condPureList cs

end

/-- Invariant of the parallel_levels fold after processing the prefix
`pre` of the topological order: the `beam_levels` map holds exactly the
processed names (newest first), the bucket contents enumerate the processed
names, a name's bucket is the bucket indexed by its assigned level, and
every assigned level satisfies the max-dependency-level recurrence over the
current map. -/
structure PLInv (g : BeamGraph) (pre : List String) (s : PLState) : Prop where
  keys : s.beam_levels.map Prod.fst = pre.reverse
  joinperm : s.levels.join.Perm pre
  bucket_of_lookup : ∀ b k, List.lookup b s.beam_levels = some k →
    k < s.levels.length ∧ b ∈ s.levels.getD k []
  lookup_of_bucket : ∀ i, i < s.levels.length → ∀ b ∈ s.levels.getD i [],
    List.lookup b s.beam_levels = some i
  recur : ∀ b k, List.lookup b s.beam_levels = some k →
    k = maxDepLevel g s.beam_levels b

/-- Whether execute_beam_inner would skip the named beam in a dry run:
the beam is cache-up-to-date (with caching on) or its condition evaluates
to false.  Used to state the corrected dry-run claim. -/
def drySkip (blake3 : List Nat → String) (cmdRun : CmdOracle)
    (penv : List (String × String)) (cfg : ExecCfg)
    (beams : List (String × Beam)) (st : EState) (n : String) : Bool :=
  match List.lookup n beams with
  | none => false
  | some beam =>
      (cfg.use_cache && is_up_to_date blake3 st.entries beam cfg.working_dir st.fs)
      || (match beam.condition with
          | some c => !(evaluate_condition cmdRun penv cfg.working_dir c st).1
          | none => false)

end Aurora
set_option maxHeartbeats 4000000

namespace Aurora

theorem cv_aux_cons {c : Char} (cs : List Char) (hc : c ≠ '$') :
    contains_variables_aux (c :: cs) = contains_variables_aux cs := by
  simp [contains_variables_aux, hc]

theorem cv_aux_dollar_cons {c2 : Char} (rest : List Char) (hc2 : c2 ≠ '{') :
    contains_variables_aux ('$' :: c2 :: rest) = contains_variables_aux (c2 :: rest) := by
  simp only [contains_variables_aux]
  split
  · rename_i heq
    split
    · rename_i tail htail
      cases htail
      exact absurd rfl hc2
    · rfl
  · rename_i hne
    rfl

theorem contains_variables_aux_iff (l : List Char) :
    contains_variables_aux l = true ↔ ∃ l1 l2, l = l1 ++ '$' :: '{' :: l2 := by
  induction l using contains_variables_aux.induct with
  | case1 =>
      constructor
      · intro h
        simp [contains_variables_aux] at h
      · rintro ⟨l1, l2, h⟩
        exact absurd h (by simp)
  | case2 tail =>
      constructor
      · intro _
        exact ⟨[], tail, rfl⟩
      · intro _
        simp [contains_variables_aux]
  | case3 cs hcs ih =>
      rcases cs with _ | ⟨c2, rest⟩
      · constructor
        · intro h
          simp [contains_variables_aux] at h
        · rintro ⟨l1, l2, h⟩
          have hlen := congrArg List.length h
          simp at hlen
          omega
      · have hc2 : c2 ≠ '{' := fun h => hcs rest (by rw [h])
        rw [cv_aux_dollar_cons rest hc2]
        constructor
        · intro h
          obtain ⟨l1, l2, heq⟩ := ih.mp h
          exact ⟨'$' :: l1, l2, by rw [heq]; rfl⟩
        · rintro ⟨l1, l2, heq⟩
          rcases l1 with _ | ⟨a, l1x⟩
          · cases heq
            exact absurd rfl hc2
          · apply ih.mpr
            exact ⟨l1x, l2, List.tail_eq_of_cons_eq heq⟩
  | case4 c cs hc ih =>
      rw [cv_aux_cons cs hc]
      constructor
      · intro h
        obtain ⟨l1, l2, heq⟩ := ih.mp h
        exact ⟨c :: l1, l2, by rw [heq]; rfl⟩
      · rintro ⟨l1, l2, heq⟩
        rcases l1 with _ | ⟨a, l1x⟩
        · cases heq
          exact absurd rfl hc
        · apply ih.mpr
          exact ⟨l1x, l2, List.tail_eq_of_cons_eq heq⟩

/-! ### C9 infrastructure -/

theorem isRefChar_rbrace : isRefChar '}' = false := by decide

theorem isRefChar_dollar : isRefChar '$' = false := by decide

theorem IsIErr_map {r : Except AuroraError (List Char)} (f : List Char → List Char)
    (h : IsIErr r) : IsIErr (r.map f) := by
  obtain ⟨msg, hm⟩ := h
  exact ⟨msg, by rw [hm]; rfl⟩

theorem interpAux_cons (ctx : InterpolationContext) (c : Char) (cs : List Char) :
    interpAux ctx (c :: cs) =
      if c = '$' then
        (match cs with
        | '$' :: cs' => (interpAux ctx cs').map (fun r => '$' :: r)
        | '{' :: cs' => interpRef ctx [] cs'
        | [] => (interpAux ctx []).map (fun r => '$' :: r)
        | c2 :: cs' => (interpAux ctx (c2 :: cs')).map (fun r => '$' :: r))
      else (interpAux ctx cs).map (fun r => c :: r) := by
  conv_lhs => rw [interpAux.eq_def]

theorem interpAux_cons_ne (ctx : InterpolationContext) {a : Char} (rest : List Char)
    (ha : a ≠ '$') :
    interpAux ctx (a :: rest) = (interpAux ctx rest).map (fun r => a :: r) := by
  rw [interpAux_cons, if_neg ha]

theorem interpAux_dollar_dollar (ctx : InterpolationContext) (rest : List Char) :
    interpAux ctx ('$' :: '$' :: rest) = (interpAux ctx rest).map (fun r => '$' :: r) := by
  conv_lhs => rw [interpAux.eq_def]
  rfl

theorem interpAux_ref (ctx : InterpolationContext) (rest : List Char) :
    interpAux ctx ('$' :: '{' :: rest) = interpRef ctx [] rest := by
  conv_lhs => rw [interpAux.eq_def]
  rfl

theorem interpAux_dollar_other (ctx : InterpolationContext) {b : Char} (rest : List Char)
    (hb1 : b ≠ '$') (hb2 : b ≠ '{') :
    interpAux ctx ('$' :: b :: rest) = (interpAux ctx (b :: rest)).map (fun r => '$' :: r) := by
  rw [interpAux_cons, if_pos rfl]
  split
  · rename_i cs' h
    cases h
    exact absurd rfl hb1
  · rename_i cs' h
    cases h
    exact absurd rfl hb2
  · rename_i h
    cases h
  · rename_i c2 cs' h
    cases h
    rfl

theorem interpRef_rbrace (ctx : InterpolationContext) (acc : List Char) (rest : List Char) :
    interpRef ctx acc ('}' :: rest) =
      refSplice (resolveRefName ctx acc) (interpAux ctx rest) := by
  conv_lhs => rw [interpRef.eq_def]
  rfl

theorem interpRef_cons (ctx : InterpolationContext) (acc : List Char) (m : Char)
    (rest : List Char) :
    interpRef ctx acc (m :: rest) =
      if m = '}' then refSplice (resolveRefName ctx acc) (interpAux ctx rest)
      else if isRefChar m then interpRef ctx (acc ++ [m]) rest
      else .error (.interpolation
        ("Invalid character '" ++ String.mk [m] ++ "' in variable reference")) := by
  conv_lhs => rw [interpRef.eq_def]

theorem interpRef_refChar2 (ctx : InterpolationContext) (acc : List Char) {m : Char}
    (rest : List Char) (hm : m ≠ '}') (hr : isRefChar m = true) :
    interpRef ctx acc (m :: rest) = interpRef ctx (acc ++ [m]) rest := by
  rw [interpRef_cons, if_neg hm, if_pos hr]

theorem interpRef_bad (ctx : InterpolationContext) (acc : List Char) {m : Char}
    (rest : List Char) (hm : m ≠ '}') (hr : isRefChar m = false) :
    interpRef ctx acc (m :: rest) =
      .error (.interpolation
        ("Invalid character '" ++ String.mk [m] ++ "' in variable reference")) := by
  rw [interpRef_cons, if_neg hm, if_neg (by simp [hr])]

theorem resolveRefName_error_interp (ctx : InterpolationContext) (acc : List Char)
    {e : AuroraError} (h : resolveRefName ctx acc = .error e) :
    ∃ msg, e = .interpolation msg := by
  unfold resolveRefName at h
  split at h
  · cases h
    exact ⟨_, rfl⟩
  · unfold resolve_variable at h
    split at h <;> split at h <;> cases h <;> exact ⟨_, rfl⟩

theorem interpRef_bad_char (ctx : InterpolationContext) {c : Char} (rest : List Char)
    (hc : isRefChar c = false) (hc2 : c ≠ '}') :
    ∀ body acc, (∀ x ∈ body, isRefChar x = true) →
      IsIErr (interpRef ctx acc (body ++ c :: rest)) := by
  intro body
  induction body with
  | nil =>
      intro acc _
      exact ⟨_, interpRef_bad ctx acc rest hc2 hc⟩
  | cons b bs ih =>
      intro acc hAll
      have hb : isRefChar b = true := hAll b (by simp)
      have hbne : b ≠ '}' := by
        intro h
        rw [h, isRefChar_rbrace] at hb
        cases hb
      rw [List.cons_append, interpRef_refChar2 ctx acc (bs ++ c :: rest) hbne hb]
      exact ih (acc ++ [b]) (fun x hx => hAll x (by simp [hx]))

theorem interpRef_empty_ref (ctx : InterpolationContext) (rest : List Char) :
    IsIErr (interpRef ctx [] ('}' :: rest)) := by
  refine ⟨"Empty variable reference", ?_⟩
  rw [interpRef_rbrace]
  rfl

/-! ### dTail lemmas -/

theorem dTail_cons (c : Char) (cs : List Char) :
    dTail (c :: cs) =
      if c = '$' ∧ dTail cs = cs.length then cs.length + 1 else dTail cs := rfl

theorem dTail_le (l : List Char) : dTail l ≤ l.length := by
  induction l with
  | nil => simp [dTail]
  | cons c cs ih =>
      rw [dTail_cons]
      split
      · simp
      · simp only [List.length_cons]
        omega

theorem dTail_cons_ne {c : Char} (cs : List Char) (hc : c ≠ '$') :
    dTail (c :: cs) = dTail cs := by
  rw [dTail_cons, if_neg]
  rintro ⟨h, -⟩
  exact hc h

theorem dTail_dollar_cons {x : Char} (cs : List Char) (hx : x ≠ '$') :
    dTail ('$' :: x :: cs) = dTail cs := by
  have h1 : dTail (x :: cs) = dTail cs := dTail_cons_ne cs hx
  rw [dTail_cons, if_neg, h1]
  rintro ⟨-, h⟩
  rw [h1] at h
  have := dTail_le cs
  simp only [List.length_cons] at h
  omega

theorem dTail_dollar_dollar_mod (cs : List Char) :
    dTail ('$' :: '$' :: cs) % 2 = dTail cs % 2 := by
  by_cases h : dTail cs = cs.length
  · have h1 : dTail ('$' :: cs) = cs.length + 1 := by
      rw [dTail_cons, if_pos ⟨rfl, h⟩]
    have h2 : dTail ('$' :: '$' :: cs) = cs.length + 2 := by
      rw [dTail_cons, if_pos ⟨rfl, by rw [h1, List.length_cons]⟩, List.length_cons]
    rw [h2, h]
    omega
  · have h1 : dTail ('$' :: cs) = dTail cs := by
      rw [dTail_cons, if_neg]
      rintro ⟨-, hh⟩
      exact h hh
    have h2 : dTail ('$' :: '$' :: cs) = dTail cs := by
      rw [dTail_cons, if_neg, h1]
      rintro ⟨-, hh⟩
      rw [h1] at hh
      have := dTail_le cs
      simp only [List.length_cons] at hh
      omega
    rw [h2]

theorem dTail_append_lt (u v : List Char) (hv : dTail v < v.length) :
    dTail (u ++ v) = dTail v := by
  induction u with
  | nil => simp
  | cons a u2 ih =>
      rw [List.cons_append, dTail_cons, if_neg, ih]
      rintro ⟨-, hh⟩
      rw [ih] at hh
      simp only [List.length_append] at hh
      omega

theorem EvenDollarTail.nil : EvenDollarTail [] := by
  simp [EvenDollarTail, dTail]

theorem EvenDollarTail.of_cons_ne {c : Char} {cs : List Char} (hc : c ≠ '$')
    (h : EvenDollarTail (c :: cs)) : EvenDollarTail cs := by
  rwa [EvenDollarTail, dTail_cons_ne cs hc] at h

theorem EvenDollarTail.of_dollar_dollar {cs : List Char}
    (h : EvenDollarTail ('$' :: '$' :: cs)) : EvenDollarTail cs := by
  rwa [EvenDollarTail, dTail_dollar_dollar_mod cs] at h

theorem EvenDollarTail.of_dollar_cons {x : Char} {cs : List Char} (hx : x ≠ '$')
    (h : EvenDollarTail ('$' :: x :: cs)) : EvenDollarTail cs := by
  rwa [EvenDollarTail, dTail_dollar_cons cs hx] at h

theorem EvenDollarTail.of_dollar_cons_self {x : Char} {cs : List Char} (hx : x ≠ '$')
    (h : EvenDollarTail ('$' :: x :: cs)) : EvenDollarTail (x :: cs) := by
  rw [EvenDollarTail, dTail_cons_ne cs hx]
  exact h.of_dollar_cons hx

theorem not_EvenDollarTail_single : ¬ EvenDollarTail ['$'] := by
  simp [EvenDollarTail, dTail]

theorem interp_bad_main (ctx : InterpolationContext) :
    ∀ n : Nat,
      (∀ u pre tail, u.length ≤ n → u = pre ++ '$' :: '{' :: tail →
        EvenDollarTail pre → BadTail tail → IsIErr (interpAux ctx u))
      ∧ (∀ w acc mid tail, w.length ≤ n → w = mid ++ '$' :: '{' :: tail →
        EvenDollarTail mid → BadTail tail → IsIErr (interpRef ctx acc w)) := by
  intro n
  induction n using Nat.strong_induction_on with
  | _ n ih =>
    have hn1 : ∀ m : Nat, 1 ≤ m → m ≤ n → n - 1 < n := by omega
    constructor
    · rintro u pre tail hlen rfl hpre htail
      rcases pre with _ | ⟨a, pre'⟩
      · rw [List.nil_append, interpAux_ref]
        rcases htail with ⟨body, c, rest, rfl, hAll, hc, hc2⟩ | ⟨rest, rfl⟩
        · exact interpRef_bad_char ctx rest hc hc2 body [] hAll
        · exact interpRef_empty_ref ctx rest
      · have hlt : n - 1 < n := by
          simp only [List.length_cons, List.length_append] at hlen
          omega
        by_cases ha : a = '$'
        · subst ha
          rcases pre' with _ | ⟨b, pre''⟩
          · exact absurd hpre not_EvenDollarTail_single
          · by_cases hb : b = '$'
            · subst hb
              rw [List.cons_append, List.cons_append, interpAux_dollar_dollar]
              apply IsIErr_map
              refine (ih (n - 1) hlt).1 _ pre'' tail ?_ rfl hpre.of_dollar_dollar htail
              simp only [List.length_cons, List.length_append] at hlen ⊢
              omega
            · by_cases hbb : b = '{'
              · subst hbb
                rw [List.cons_append, List.cons_append, interpAux_ref]
                refine (ih (n - 1) hlt).2 _ [] pre'' tail ?_ rfl
                  (hpre.of_dollar_cons (by decide)) htail
                simp only [List.length_cons, List.length_append] at hlen ⊢
                omega
              · rw [List.cons_append, List.cons_append,
                  interpAux_dollar_other ctx _ hb hbb]
                apply IsIErr_map
                refine (ih (n - 1) hlt).1 _ (b :: pre'') tail ?_ (by simp)
                  (hpre.of_dollar_cons_self hb) htail
                simp only [List.length_cons, List.length_append] at hlen ⊢
                omega
        · rw [List.cons_append, interpAux_cons_ne ctx _ ha]
          apply IsIErr_map
          refine (ih (n - 1) hlt).1 _ pre' tail ?_ rfl (hpre.of_cons_ne ha) htail
          simp only [List.length_cons, List.length_append] at hlen ⊢
          omega
    · rintro w acc mid tail hlen rfl hmid htail
      rcases mid with _ | ⟨m, mid'⟩
      · rw [List.nil_append]
        exact ⟨_, interpRef_bad ctx acc _ (by decide) isRefChar_dollar⟩
      · have hlt : n - 1 < n := by
          simp only [List.length_cons, List.length_append] at hlen
          omega
        by_cases hm : m = '}'
        · subst hm
          rw [List.cons_append, interpRef_rbrace]
          cases hres : resolveRefName ctx acc with
          | error e =>
              obtain ⟨msg, rfl⟩ := resolveRefName_error_interp ctx acc hres
              exact ⟨msg, rfl⟩
          | ok v =>
              obtain ⟨msg, hmsg⟩ := (ih (n - 1) hlt).1 _ mid' tail
                (by simp only [List.length_cons, List.length_append] at hlen ⊢; omega)
                rfl (hmid.of_cons_ne (by decide)) htail
              refine ⟨msg, ?_⟩
              simp only [refSplice, hmsg]
              rfl
        · by_cases hr : isRefChar m
          · have hmne : m ≠ '$' := by
              intro h
              rw [h, isRefChar_dollar] at hr
              cases hr
            rw [List.cons_append, interpRef_refChar2 ctx acc _ hm hr]
            refine (ih (n - 1) hlt).2 _ (acc ++ [m]) mid' tail ?_ rfl
              (hmid.of_cons_ne hmne) htail
            simp only [List.length_cons, List.length_append] at hlen ⊢
            omega
          · rw [List.cons_append]
            exact ⟨_, interpRef_bad ctx acc _ hm (by simpa using hr)⟩

theorem interpAux_nil (ctx : InterpolationContext) : interpAux ctx [] = .ok [] := by
  conv_lhs => rw [interpAux.eq_def]

/-- C6 (counterexample): the claim "contains_variables(s) is true iff
interpolate(s, ctx) could differ from s for some context in which every
reference resolves" fails at s = "$$": the string contains no reference at
all (so every reference trivially resolves in the empty context), yet
interpolate rewrites it to "$" while contains_variables returns false. -/
theorem C6_counterexample :
    contains_variables "$$" = false
    ∧ interpolate "$$" InterpolationContext.empty = .ok "$"
    ∧ ("$" : String) ≠ "$$" := by
  refine ⟨by decide, ?_, by decide⟩
  show (interpAux InterpolationContext.empty ('$' :: '$' :: [])).map String.mk = .ok "$"
  rw [interpAux_dollar_dollar, interpAux_nil]
  rfl

/-- C6 (amended): contains_variables(s) returns true exactly when s
contains a dollar sign immediately followed by an opening brace; this is
not equivalent to "interpolate could change s", because the escape "$$" is
rewritten to "$" although contains_variables returns false on it. -/
theorem C6_theorem (s : String) :
    contains_variables s = true ↔ ∃ l1 l2, s.data = l1 ++ '$' :: '{' :: l2 :=
  contains_variables_aux_iff s.data

/-- C9 (counterexample): the claim limits accepted reference characters to
the set A-Z, a-z, 0-9, underscore and dot, but parse_variable_ref uses
Rust char::is_alphanumeric, which is Unicode-wide: the reference ${é}
resolves successfully (given a variable named é) even though é lies outside
the claimed character set. -/
theorem C9_counterexample :
    interpolate "${é}"
      { vars := [("é", "v")], env := [], beam_name := none, extra := [] } = .ok "v"
    ∧ ('é'.isAlphanum || 'é' = '_' || 'é' = '.') = false := by
  constructor
  · show (interpAux _ ('$' :: '{' :: 'é' :: '}' :: [])).map String.mk = .ok "v"
    rw [interpAux_ref, interpRef_refChar2 _ _ _ (by decide) (by decide),
      interpRef_rbrace, interpAux_nil]
    rfl
  · decide

/-- C9 (amended): inside a live ${…} reference (one whose opening is not
consumed by a $$ escape, i.e. preceded by an even run of dollar signs), any
character that is neither accepted by the code's classification — Rust's
Unicode char::is_alphanumeric, or underscore, or dot — nor the closing
brace makes interpolate fail with an Interpolation error, for every
context; an empty reference ${} likewise fails.  The accepted set is wider
than the claimed [A-Za-z0-9_.]: it also contains all other Unicode
alphanumerics (see the counterexample).  The bad character is restricted to
code points below 256, where the model of char::is_alphanumeric is exact. -/
theorem C9_theorem :
    (∀ (ctx : InterpolationContext) (pre body rest : List Char) (c : Char),
      EvenDollarTail pre → (∀ x ∈ body, isRefChar x = true) →
      isRefChar c = false → c ≠ '}' → c.toNat < 256 →
      ∃ msg, interpolate (String.mk (pre ++ '$' :: '{' :: (body ++ c :: rest))) ctx
        = .error (.interpolation msg))
    ∧ (∀ (ctx : InterpolationContext) (pre rest : List Char),
      EvenDollarTail pre →
      ∃ msg, interpolate (String.mk (pre ++ '$' :: '{' :: '}' :: rest)) ctx
        = .error (.interpolation msg)) := by
  constructor
  · intro ctx pre body rest c hpre hbody hc hc2 _
    obtain ⟨msg, hmsg⟩ :=
      ((interp_bad_main ctx (pre ++ '$' :: '{' :: (body ++ c :: rest)).length).1
        _ pre _ le_rfl rfl hpre (Or.inl ⟨body, c, rest, rfl, hbody, hc, hc2⟩))
    refine ⟨msg, ?_⟩
    show (interpAux ctx (pre ++ '$' :: '{' :: (body ++ c :: rest))).map String.mk = _
    rw [hmsg]
    rfl
  · intro ctx pre rest hpre
    obtain ⟨msg, hmsg⟩ :=
      ((interp_bad_main ctx (pre ++ '$' :: '{' :: '}' :: rest).length).1
        _ pre _ le_rfl rfl hpre (Or.inr ⟨rest, rfl⟩))
    refine ⟨msg, ?_⟩
    show (interpAux ctx (pre ++ '$' :: '{' :: '}' :: rest)).map String.mk = _
    rw [hmsg]
    rfl

/-- Witness for C9_theorem: both parts applied at concrete inputs — the
reference ${a!} with the invalid character '!', and the empty reference
${}. -/
theorem C9_theorem_witness :
    (EvenDollarTail ([] : List Char)
      ∧ (∀ x ∈ ['a'], isRefChar x = true)
      ∧ isRefChar '!' = false ∧ '!' ≠ '}' ∧ '!'.toNat < 256
      ∧ ∃ msg, interpolate (String.mk ([] ++ '$' :: '{' :: (['a'] ++ '!' :: [])))
          InterpolationContext.empty = .error (.interpolation msg))
    ∧ ∃ msg, interpolate (String.mk ([] ++ '$' :: '{' :: '}' :: []))
        InterpolationContext.empty = .error (.interpolation msg) :=
  ⟨⟨EvenDollarTail.nil, by decide, by decide, by decide, by decide,
    C9_theorem.1 InterpolationContext.empty [] ['a'] [] '!'
      EvenDollarTail.nil (by decide) (by decide) (by decide) (by decide)⟩,
   C9_theorem.2 InterpolationContext.empty [] [] EvenDollarTail.nil⟩

/-! ### C1 — staleness predicate -/

theorem inputOk_iff (blake3 : List Nat → String) (fs : FileSys) (wd : String)
    (entry : CacheEntry) (p : String) :
    inputOk blake3 fs wd entry p = true ↔
      ∃ h, hash_file blake3 fs (pathJoin wd p) = some h
        ∧ List.lookup p entry.input_hashes = some h := by
  unfold inputOk
  cases h1 : hash_file blake3 fs (pathJoin wd p) with
  | none => simp
  | some hsh =>
      cases h2 : List.lookup p entry.input_hashes with
      | none => simp
      | some cached => simp [eq_comm]

theorem outputOk_iff (blake3 : List Nat → String) (fs : FileSys) (wd : String)
    (entry : CacheEntry) (p : String) :
    outputOk blake3 fs wd entry p = true ↔
      fs.pathExists (pathJoin wd p) = true
        ∧ ∃ h, hash_file blake3 fs (pathJoin wd p) = some h
          ∧ List.lookup p entry.output_hashes = some h := by
  unfold outputOk
  by_cases hex : FileSys.pathExists fs (pathJoin wd p)
  · cases h1 : hash_file blake3 fs (pathJoin wd p) with
    | none => simp [hex, h1]
    | some hsh =>
        cases h2 : List.lookup p entry.output_hashes with
        | none => simp [hex, h1, h2]
        | some cached => simp [hex, h1, h2, eq_comm]
  · simp [hex]

theorem is_up_to_date_iff (blake3 : List Nat → String) (entries : CacheEntries)
    (beam : Beam) (wd : String) (fs : FileSys) :
    is_up_to_date blake3 entries beam wd fs = true ↔
      ∃ entry, List.lookup beam.name entries = some entry
        ∧ entry.command_hash = hash_commands blake3 beam
        ∧ (∀ p ∈ beam.inputs, ∃ h, hash_file blake3 fs (pathJoin wd p) = some h
            ∧ List.lookup p entry.input_hashes = some h)
        ∧ (∀ p ∈ beam.outputs, fs.pathExists (pathJoin wd p) = true
            ∧ ∃ h, hash_file blake3 fs (pathJoin wd p) = some h
              ∧ List.lookup p entry.output_hashes = some h) := by
  unfold is_up_to_date
  cases hlook : List.lookup beam.name entries with
  | none => simp
  | some entry =>
      simp only [Bool.and_eq_true, List.all_eq_true, decide_eq_true_eq]
      constructor
      · rintro ⟨⟨hcmd, hins⟩, houts⟩
        exact ⟨entry, rfl, hcmd, fun p hp => (inputOk_iff blake3 fs wd entry p).mp (hins p hp),
          fun p hp => (outputOk_iff blake3 fs wd entry p).mp (houts p hp)⟩
      · rintro ⟨entry2, heq, hcmd, hins, houts⟩
        injection heq with h3
        subst h3
        exact ⟨⟨hcmd, fun p hp => (inputOk_iff blake3 fs wd _ p).mpr (hins p hp)⟩,
          fun p hp => (outputOk_iff blake3 fs wd _ p).mpr (houts p hp)⟩

/-- C1: is_up_to_date(b, w) returns true iff an entry exists for b.name,
the entry's stored command hash equals the BLAKE3 hex of b's run-block
command strings joined by a newline (of the empty string when b has no run
block — that is hash_commands), for every declared input reading and
hashing the file at w/p succeeds and matches the entry's stored input
hash, and every declared output exists, hashes successfully, and matches
the stored output hash.  The predicate is a total Bool: an unreadable file
makes it false, never an error. -/
theorem C1_theorem (blake3 : List Nat → String) (entries : CacheEntries)
    (beam : Beam) (wd : String) (fs : FileSys) :
    is_up_to_date blake3 entries beam wd fs = true ↔
      ∃ entry, List.lookup beam.name entries = some entry
        ∧ entry.command_hash = hash_commands blake3 beam
        ∧ (∀ p ∈ beam.inputs, ∃ h, hash_file blake3 fs (pathJoin wd p) = some h
            ∧ List.lookup p entry.input_hashes = some h)
        ∧ (∀ p ∈ beam.outputs, fs.pathExists (pathJoin wd p) = true
            ∧ ∃ h, hash_file blake3 fs (pathJoin wd p) = some h
              ∧ List.lookup p entry.output_hashes = some h) :=
  is_up_to_date_iff blake3 entries beam wd fs

/-! ### C4 — record then staleness check -/

theorem lookup_assocInsert {α : Type} (m : List (String × α)) (k : String) (v : α) :
    List.lookup k (assocInsert m k v) = some v := by
  induction m with
  | nil => simp [assocInsert, List.lookup]
  | cons kv rest ih =>
      obtain ⟨k1, v1⟩ := kv
      by_cases h : k1 = k
      · subst h
        simp [assocInsert, List.lookup]
      · simp only [assocInsert]
        rw [if_neg h]
        simp only [List.lookup]
        have hbe : (k == k1) = false := beq_eq_false_iff_ne.mpr (Ne.symm h)
        rw [hbe]
        exact ih

theorem lookup_hash_filterMap (blake3 : List Nat → String) (fs : FileSys)
    (wd : String) (ps : List String) (p : String) (hp : p ∈ ps) (h : String)
    (hh : hash_file blake3 fs (pathJoin wd p) = some h) :
    List.lookup p (ps.filterMap
      (fun i => (hash_file blake3 fs (pathJoin wd i)).map (fun x => (i, x)))) = some h := by
  induction ps with
  | nil => cases hp
  | cons i is ih =>
      by_cases hip : i = p
      · subst hip
        simp [List.filterMap_cons, hh, List.lookup]
      · have h1 : p ∈ is := by
          rcases List.mem_cons.mp hp with h2 | h2
          · exact absurd h2.symm hip
          · exact h2
        cases hhead : hash_file blake3 fs (pathJoin wd i) with
        | none =>
            simp only [List.filterMap_cons, hhead]
            exact ih h1
        | some hi =>
            simp only [List.filterMap_cons, hhead]
            have hbe : (p == i) = false := beq_eq_false_iff_ne.mpr (Ne.symm hip)
            simp only [Option.map, List.lookup]
            rw [hbe]
            exact ih h1

/-- C4 (counterexample): for a beam declaring an input file that does not
exist, record succeeds (the missing file is silently skipped) but
is_up_to_date is false immediately afterwards with nothing changed,
because hashing the missing input fails; so the claim fails as a statement
about every beam. -/
theorem C4_counterexample :
    is_up_to_date (fun _ => "h")
      (record (fun _ => "h") [] { Beam.new "b" with inputs := ["in.txt"] } "." [] 0)
      { Beam.new "b" with inputs := ["in.txt"] } "." [] = false := by rfl

/-- C4 (amended): immediately after record(b, w) succeeds — with no
subsequent change to the filesystem or to b — is_up_to_date(b, w) returns
true, provided every declared input and output path of b is a readable
file at record time; a beam declaring an unreadable path is recorded
without a hash for it and stays not-up-to-date. -/
theorem C4_theorem (blake3 : List Nat → String) (entries : CacheEntries)
    (beam : Beam) (wd : String) (fs : FileSys) (now : Nat)
    (hin : ∀ p ∈ beam.inputs, ∃ content, fs.read (pathJoin wd p) = .file content)
    (hout : ∀ p ∈ beam.outputs, ∃ content, fs.read (pathJoin wd p) = .file content) :
    is_up_to_date blake3 (record blake3 entries beam wd fs now) beam wd fs = true := by
  rw [is_up_to_date_iff]
  unfold record
  refine ⟨_, lookup_assocInsert _ _ _, rfl, ?_, ?_⟩
  · intro p hp
    obtain ⟨content, hc⟩ := hin p hp
    have hhf : hash_file blake3 fs (pathJoin wd p) = some (blake3 content) := by
      unfold hash_file
      rw [hc]
    exact ⟨blake3 content, hhf, lookup_hash_filterMap blake3 fs wd beam.inputs p hp _ hhf⟩
  · intro p hp
    obtain ⟨content, hc⟩ := hout p hp
    have hhf : hash_file blake3 fs (pathJoin wd p) = some (blake3 content) := by
      unfold hash_file
      rw [hc]
    refine ⟨?_, blake3 content, hhf,
      lookup_hash_filterMap blake3 fs wd beam.outputs p hp _ hhf⟩
    simp [FileSys.pathExists, hc]

/-- Witness for C4_theorem: a beam with one input whose file is readable. -/
theorem C4_theorem_witness :
    (∀ p ∈ ({ Beam.new "b" with inputs := ["in.txt"] } : Beam).inputs,
      ∃ content, FileSys.read ([(pathJoin "." "in.txt", FileState.file [1])] : FileSys)
        (pathJoin "." p) = .file content)
    ∧ (∀ p ∈ ({ Beam.new "b" with inputs := ["in.txt"] } : Beam).outputs,
      ∃ content, FileSys.read ([(pathJoin "." "in.txt", FileState.file [1])] : FileSys)
        (pathJoin "." p) = .file content)
    ∧ is_up_to_date (fun _ => "h")
        (record (fun _ => "h") [] { Beam.new "b" with inputs := ["in.txt"] } "."
          ([(pathJoin "." "in.txt", FileState.file [1])] : FileSys) 0)
        { Beam.new "b" with inputs := ["in.txt"] } "."
        ([(pathJoin "." "in.txt", FileState.file [1])] : FileSys) = true := by
  have h1 : ∀ p ∈ ({ Beam.new "b" with inputs := ["in.txt"] } : Beam).inputs,
      ∃ content, FileSys.read ([(pathJoin "." "in.txt", FileState.file [1])] : FileSys)
        (pathJoin "." p) = .file content := by
    intro p hp
    simp only [List.mem_singleton] at hp
    subst hp
    exact ⟨[1], rfl⟩
  have h2 : ∀ p ∈ ({ Beam.new "b" with inputs := ["in.txt"] } : Beam).outputs,
      ∃ content, FileSys.read ([(pathJoin "." "in.txt", FileState.file [1])] : FileSys)
        (pathJoin "." p) = .file content := by
    intro p hp
    cases hp
  exact ⟨h1, h2, C4_theorem (fun _ => "h") [] _ "." _ 0 h1 h2⟩

/-! ### C10 and C7 — parser-level claims -/

/-- C10: parsing a Beamfile source that defines two beams with the same
name succeeds without error, and the resulting Beamfile contains only the
later definition (add_beam replaces the earlier entry in the name-keyed
map); the same holds for two variables with the same name. -/
theorem C10_theorem :
    (parse_beamfile "beam \"x\" \x7b description = \"one\" \x7d\nbeam \"x\" \x7b description = \"two\" \x7d"
        "Beamfile").toOption.map
      (fun bf => ((bf.get_beam "x").map (fun b => b.description), bf.beams.length))
      = some (some (some "two"), 1)
    ∧ (parse_beamfile "variable \"m\" \x7b default = \"a\" \x7d\nvariable \"m\" \x7b default = \"b\" \x7d"
        "Beamfile").toOption.map
      (fun bf => ((List.lookup "m" bf.vars).map (fun v => v.default), bf.vars.length))
      = some (some (some "b"), 1) :=
  ⟨rfl, rfl⟩

/-- C7 (counterexample): parsing the incomplete source "beam" fails, and
the returned error is Parse with span = none — the error carries no byte
offset into the source (parse_beamfile maps every nom error to
span: None), and no UnexpectedEof variant exists in AuroraError (the
parser crate's ParseError::eof helper is never invoked).  The message
string here is the model's placeholder for the Debug rendering of the nom
error, which the embedding does not reproduce; the content of the
counterexample is the constructor and the absent span. -/
theorem C7_counterexample :
    parse_beamfile "beam" "Beamfile" = .error (.parse "Parse error: (nom error)" none) :=
  rfl

/-- C7 (amended): whenever parsing a Beamfile source fails, the returned
error is an AuroraError::Parse carrying a human-readable message but with
span = None: no byte offset is attached, and at end of input no
UnexpectedEof variant is produced (none exists in the error type). -/
theorem C7_theorem (content path : String) (e : AuroraError)
    (h : parse_beamfile content path = .error e) :
    ∃ msg, e = .parse msg none := by
  unfold parse_beamfile at h
  cases hb : beamfileP content.data with
  | none =>
      rw [hb] at h
      cases h
      exact ⟨_, rfl⟩
  | some p =>
      rw [hb] at h
      obtain ⟨ast, rest⟩ := p
      simp [convert_ast] at h

/-- Witness for C7_theorem: the failing source "beam". -/
theorem C7_theorem_witness :
    parse_beamfile "beam" "Beamfile" = .error (.parse "Parse error: (nom error)" none)
    ∧ ∃ msg, (AuroraError.parse "Parse error: (nom error)" none) = .parse msg none :=
  ⟨rfl, C7_theorem "beam" "Beamfile" _ rfl⟩

/-! ### C3 — pre-hook fail_on_error is ignored -/

/-- C3: execute_beam_inner wraps each pre-hook's commands in RunBlock::new,
whose fail_fast is unconditionally true; the hook's fail_on_error flag is
never consulted.  Evaluated at the failing input — a beam whose single
pre-hook has fail_on_error = false and a command exiting 1 — the beam is
aborted as failed (CommandFailed), although the flag (documented in
hook.rs as "whether to fail the beam if the hook fails") says it must
not be. -/
theorem C3_theorem :
    (execute_beam_inner (fun _ => "h")
      (fun st c _ _ => (.ok ⟨if c = "false" then 1 else 0, "", ""⟩, st))
      [] ⟨".", []⟩ ⟨".", true, false⟩
      [("b", { Beam.new "b" with
          pre_hooks := [{ Hook.new ["false"] with fail_on_error := false }] })]
      0 "b" ⟨[], [], 0⟩).1
      = .error (.commandFailed "false" (some 1) (some ""))
    ∧ ({ Hook.new ["false"] with fail_on_error := false } : Hook).fail_on_error = false :=
  ⟨rfl, rfl⟩

/-! ### C5 — dry run -/


/-- C5 (counterexample): with dry_run = true, a beam gated by a false
condition (file_exists on a missing file) is skipped, not executed: the
report has executed = [] and skipped = [the beam], contradicting
"executed contains exactly the beams of the plan and skipped is empty". -/
theorem C5_counterexample :
    (execute (fun _ => "h") (fun st _ _ _ => (.ok ⟨0, "", ""⟩, st)) [] ⟨".", []⟩
      ⟨".", true, true⟩
      [("a", { Beam.new "a" with condition := some (.fileExists "GO") })]
      0 [["a"]] ⟨[], [], 0⟩).1.executed = []
    ∧ (execute (fun _ => "h") (fun st _ _ _ => (.ok ⟨0, "", ""⟩, st)) [] ⟨".", []⟩
      ⟨".", true, true⟩
      [("a", { Beam.new "a" with condition := some (.fileExists "GO") })]
      0 [["a"]] ⟨[], [], 0⟩).1.skipped = ["a"] :=
  ⟨rfl, rfl⟩

theorem evalCond_pure_all (cmdRun : CmdOracle) (penv : List (String × String))
    (wd : String) : ∀ n : Nat,
    (∀ (c : Condition) (st : EState), sizeOf c ≤ n → condPure c = true →
      (evaluate_condition cmdRun penv wd c st).2 = st)
    ∧ (∀ (cs : List Condition) (st : EState), sizeOf cs ≤ n → condPureList cs = true →
      (evalAnd cmdRun penv wd cs st).2 = st ∧ (evalOr cmdRun penv wd cs st).2 = st) := by
  intro n
  induction n using Nat.strong_induction_on with
  | _ n ih =>
    constructor
    · intro c st hsz hp
      cases c with
      | fileExists p => rfl
      | envSet nm => rfl
      | envEquals nm v => rfl
      | command r e => simp [condPure] at hp
      | and cs =>
          have hlt : n - 1 < n := by
            have : 1 ≤ sizeOf (Condition.and cs) := by
              simp [Condition.and.sizeOf_spec]
            omega
          have hsz' : sizeOf cs ≤ n - 1 := by
            simp [Condition.and.sizeOf_spec] at hsz
            omega
          exact ((ih (n - 1) hlt).2 cs st hsz' hp).1
      | or cs =>
          have hlt : n - 1 < n := by
            have : 1 ≤ sizeOf (Condition.or cs) := by
              simp [Condition.or.sizeOf_spec]
            omega
          have hsz' : sizeOf cs ≤ n - 1 := by
            simp [Condition.or.sizeOf_spec] at hsz
            omega
          exact ((ih (n - 1) hlt).2 cs st hsz' hp).2
      | not c1 =>
          have hlt : n - 1 < n := by
            have : 1 ≤ sizeOf (Condition.not c1) := by
              simp [Condition.not.sizeOf_spec]
            omega
          have hsz' : sizeOf c1 ≤ n - 1 := by
            simp [Condition.not.sizeOf_spec] at hsz
            omega
          exact (ih (n - 1) hlt).1 c1 st hsz' hp
    · intro cs st hsz hp
      cases cs with
      | nil => exact ⟨rfl, rfl⟩
      | cons c cs2 =>
          simp only [condPureList, Bool.and_eq_true] at hp
          obtain ⟨hp1, hp2⟩ := hp
          have hlt : n - 1 < n := by
            have : 1 ≤ sizeOf (c :: cs2) := by
              simp
              omega
            omega
          have hsz1 : sizeOf c ≤ n - 1 := by
            simp only [List.cons.sizeOf_spec] at hsz
            omega
          have hsz2 : sizeOf cs2 ≤ n - 1 := by
            simp only [List.cons.sizeOf_spec] at hsz
            omega
          have h1 := (ih (n - 1) hlt).1 c st hsz1 hp1
          constructor
          · show (evalAnd cmdRun penv wd (c :: cs2) st).2 = st
            have hred : evalAnd cmdRun penv wd (c :: cs2) st =
                (if (evaluate_condition cmdRun penv wd c st).1 then
                  evalAnd cmdRun penv wd cs2 (evaluate_condition cmdRun penv wd c st).2
                else (false, (evaluate_condition cmdRun penv wd c st).2)) := rfl
            rw [hred, h1]
            cases hb : (evaluate_condition cmdRun penv wd c st).1 with
            | true =>
                simp only [if_true]
                exact ((ih (n - 1) hlt).2 cs2 st hsz2 hp2).1
            | false => simp
          · show (evalOr cmdRun penv wd (c :: cs2) st).2 = st
            have hred : evalOr cmdRun penv wd (c :: cs2) st =
                (if (evaluate_condition cmdRun penv wd c st).1 then
                  (true, (evaluate_condition cmdRun penv wd c st).2)
                else evalOr cmdRun penv wd cs2 (evaluate_condition cmdRun penv wd c st).2) := rfl
            rw [hred, h1]
            cases hb : (evaluate_condition cmdRun penv wd c st).1 with
            | true => simp
            | false =>
                simp only [Bool.false_eq_true, if_neg]
                exact ((ih (n - 1) hlt).2 cs2 st hsz2 hp2).2

theorem evalCond_pure (cmdRun : CmdOracle) (penv : List (String × String))
    (wd : String) (c : Condition) (st : EState) (hp : condPure c = true) :
    (evaluate_condition cmdRun penv wd c st).2 = st :=
  (evalCond_pure_all cmdRun penv wd (sizeOf c)).1 c st le_rfl hp

theorem ebi_dry (blake3 : List Nat → String) (cmdRun : CmdOracle)
    (penv : List (String × String)) (runner : CommandRunner) (cfg : ExecCfg)
    (beams : List (String × Beam)) (now : Nat) (n : String) (st : EState)
    (hdry : cfg.dry_run = true)
    (beam : Beam) (hbeam : List.lookup n beams = some beam)
    (hpure : ∀ c, beam.condition = some c → condPure c = true) :
    (execute_beam_inner blake3 cmdRun penv runner cfg beams now n st).2 = st
    ∧ ((drySkip blake3 cmdRun penv cfg beams st n = true
        ∧ ∃ reason, (execute_beam_inner blake3 cmdRun penv runner cfg beams now n st).1
            = .ok (.skipped reason))
      ∨ (drySkip blake3 cmdRun penv cfg beams st n = false
        ∧ (execute_beam_inner blake3 cmdRun penv runner cfg beams now n st).1
            = .ok .executed)) := by
  cases hcache : cfg.use_cache && is_up_to_date blake3 st.entries beam cfg.working_dir st.fs with
  | true =>
      have hred : execute_beam_inner blake3 cmdRun penv runner cfg beams now n st
          = (.ok (.skipped .cached), st) := by
        unfold execute_beam_inner
        rw [hbeam]
        simp [hcache]
      have hskip : drySkip blake3 cmdRun penv cfg beams st n = true := by
        unfold drySkip
        rw [hbeam]
        simp [hcache]
      exact ⟨by rw [hred], Or.inl ⟨hskip, .cached, by rw [hred]⟩⟩
  | false =>
      cases hcond : beam.condition with
      | none =>
          have hred : execute_beam_inner blake3 cmdRun penv runner cfg beams now n st
              = (.ok .executed, st) := by
            unfold execute_beam_inner
            rw [hbeam]
            simp [hcache, hcond, hdry]
          have hskip : drySkip blake3 cmdRun penv cfg beams st n = false := by
            unfold drySkip
            rw [hbeam]
            simp [hcache, hcond]
          exact ⟨by rw [hred], Or.inr ⟨hskip, by rw [hred]⟩⟩
      | some c =>
          have hpc := hpure c hcond
          have hst := evalCond_pure cmdRun penv cfg.working_dir c st hpc
          cases hb : (evaluate_condition cmdRun penv cfg.working_dir c st).1 with
          | false =>
              have hred : execute_beam_inner blake3 cmdRun penv runner cfg beams now n st
                  = (.ok (.skipped .conditionFalse),
                     (evaluate_condition cmdRun penv cfg.working_dir c st).2) := by
                unfold execute_beam_inner
                rw [hbeam]
                simp [hcache, hcond, hb]
              have hskip : drySkip blake3 cmdRun penv cfg beams st n = true := by
                unfold drySkip
                rw [hbeam]
                simp [hcache, hcond, hb]
              exact ⟨by rw [hred]; exact hst, Or.inl ⟨hskip, .conditionFalse, by rw [hred]⟩⟩
          | true =>
              have hred : execute_beam_inner blake3 cmdRun penv runner cfg beams now n st
                  = (.ok .executed,
                     (evaluate_condition cmdRun penv cfg.working_dir c st).2) := by
                unfold execute_beam_inner
                rw [hbeam]
                simp [hcache, hcond, hb, hdry]
              have hskip : drySkip blake3 cmdRun penv cfg beams st n = false := by
                unfold drySkip
                rw [hbeam]
                simp [hcache, hcond, hb]
              exact ⟨by rw [hred]; exact hst, Or.inr ⟨hskip, by rw [hred]⟩⟩

theorem processBeam_eq (blake3 : List Nat → String) (cmdRun : CmdOracle)
    (penv : List (String × String)) (runner : CommandRunner) (cfg : ExecCfg)
    (beams : List (String × Beam)) (now : Nat) (report : ExecReport) (st : EState)
    (n : String) :
    processBeam blake3 cmdRun penv runner cfg beams now (report, st) n
      = (match execute_beam_inner blake3 cmdRun penv runner cfg beams now n st with
        | (.ok .executed, st') =>
            ({ report with executed := report.executed ++ [n] }, st')
        | (.ok (.skipped _), st') =>
            ({ report with skipped := report.skipped ++ [n] }, st')
        | (.error e, st') =>
            ({ report with failed := report.failed ++ [(n, e.toMessage)] }, st')) := rfl

theorem processLevel_dry (blake3 : List Nat → String) (cmdRun : CmdOracle)
    (penv : List (String × String)) (runner : CommandRunner) (cfg : ExecCfg)
    (beams : List (String × Beam)) (now : Nat) (st : EState)
    (hdry : cfg.dry_run = true) :
    ∀ (level : List String) (report : ExecReport),
    (∀ n ∈ level, ∃ beam, List.lookup n beams = some beam
      ∧ ∀ c, beam.condition = some c → condPure c = true) →
    processLevel blake3 cmdRun penv runner cfg beams now level (report, st)
      = ({ executed := report.executed
            ++ level.filter (fun n => !(drySkip blake3 cmdRun penv cfg beams st n)),
           skipped := report.skipped
            ++ level.filter (fun n => drySkip blake3 cmdRun penv cfg beams st n),
           failed := report.failed }, st) := by
  intro level
  induction level with
  | nil => intro report _; simp [processLevel]
  | cons n level2 ih =>
      intro report hex
      obtain ⟨beam, hbeam, hpure⟩ := hex n (by simp)
      obtain ⟨hst, hcases⟩ := ebi_dry blake3 cmdRun penv runner cfg beams now n st
        hdry beam hbeam hpure
      have hexp : ∀ m ∈ level2, ∃ beam, List.lookup m beams = some beam
          ∧ ∀ c, beam.condition = some c → condPure c = true :=
        fun m hm => hex m (by simp [hm])
      have hpb : processLevel blake3 cmdRun penv runner cfg beams now (n :: level2)
          (report, st) = processLevel blake3 cmdRun penv runner cfg beams now level2
            (processBeam blake3 cmdRun penv runner cfg beams now (report, st) n) := rfl
      rcases hcases with ⟨hskip, reason, hres⟩ | ⟨hskip, hres⟩
      · have hpair : execute_beam_inner blake3 cmdRun penv runner cfg beams now n st
            = (.ok (.skipped reason), st) := Prod.ext hres hst
        have hstep : processBeam blake3 cmdRun penv runner cfg beams now (report, st) n
            = ({ report with skipped := report.skipped ++ [n] }, st) := by
          rw [processBeam_eq, hpair]
        rw [hpb, hstep, ih _ hexp]
        simp [List.filter_cons, hskip, List.append_assoc]
      · have hpair : execute_beam_inner blake3 cmdRun penv runner cfg beams now n st
            = (.ok .executed, st) := Prod.ext hres hst
        have hstep : processBeam blake3 cmdRun penv runner cfg beams now (report, st) n
            = ({ report with executed := report.executed ++ [n] }, st) := by
          rw [processBeam_eq, hpair]
        rw [hpb, hstep, ih _ hexp]
        simp [List.filter_cons, hskip, List.append_assoc]

theorem executeLevels_dry (blake3 : List Nat → String) (cmdRun : CmdOracle)
    (penv : List (String × String)) (runner : CommandRunner) (cfg : ExecCfg)
    (beams : List (String × Beam)) (now : Nat) (st : EState)
    (hdry : cfg.dry_run = true) :
    ∀ (plan : List (List String)) (report : ExecReport),
    report.failed = [] →
    (∀ n ∈ plan.join, ∃ beam, List.lookup n beams = some beam
      ∧ ∀ c, beam.condition = some c → condPure c = true) →
    executeLevels blake3 cmdRun penv runner cfg beams now plan (report, st)
      = ({ executed := report.executed
            ++ plan.join.filter (fun n => !(drySkip blake3 cmdRun penv cfg beams st n)),
           skipped := report.skipped
            ++ plan.join.filter (fun n => drySkip blake3 cmdRun penv cfg beams st n),
           failed := [] }, st) := by
  intro plan
  induction plan with
  | nil =>
      intro report hf _
      show (report, st) = _
      rw [← hf]
      simp
  | cons level rest ih =>
      intro report hf hex
      have h1 : executeLevels blake3 cmdRun penv runner cfg beams now (level :: rest)
          (report, st)
          = if report.failed ≠ [] then (report, st)
            else executeLevels blake3 cmdRun penv runner cfg beams now rest
              (processLevel blake3 cmdRun penv runner cfg beams now level (report, st)) :=
        rfl
      have hlevel : ∀ n ∈ level, ∃ beam, List.lookup n beams = some beam
          ∧ ∀ c, beam.condition = some c → condPure c = true := by
        intro n hn
        refine hex n ?_
        simp only [List.join_cons, List.mem_append]
        exact Or.inl hn
      have hrest : ∀ n ∈ rest.join, ∃ beam, List.lookup n beams = some beam
          ∧ ∀ c, beam.condition = some c → condPure c = true := by
        intro n hn
        refine hex n ?_
        simp only [List.join_cons, List.mem_append]
        exact Or.inr hn
      have hstepL := processLevel_dry blake3 cmdRun penv runner cfg beams now st hdry
        level report hlevel
      have ih2 := ih
        { executed := report.executed
            ++ level.filter (fun n => !(drySkip blake3 cmdRun penv cfg beams st n)),
          skipped := report.skipped
            ++ level.filter (fun n => drySkip blake3 cmdRun penv cfg beams st n),
          failed := report.failed } hf hrest
      rw [h1, if_neg (by simp [hf]), hstepL, ih2]
      simp [List.join_cons, List.filter_append, List.append_assoc]

/-- C5 (amended): with dry_run = true and no Command conditions among the
plan's beams, execute returns failed = [], leaves the world (filesystem and
cache) unchanged — so no files are modified — and splits the plan's beams
between executed (those neither cache-up-to-date nor gated by a false
condition) and skipped (the rest); the original unconditional claim
"executed = plan.all_beams(), skipped = []" fails whenever a cache hit or
a false condition occurs, because the dry-run check comes after the cache
and condition checks (see the counterexample). -/
theorem C5_theorem (blake3 : List Nat → String) (cmdRun : CmdOracle)
    (penv : List (String × String)) (runner : CommandRunner) (cfg : ExecCfg)
    (beams : List (String × Beam)) (now : Nat) (plan : List (List String))
    (st : EState)
    (hdry : cfg.dry_run = true)
    (hex : ∀ n ∈ plan.join, ∃ beam, List.lookup n beams = some beam
      ∧ ∀ c, beam.condition = some c → condPure c = true) :
    (execute blake3 cmdRun penv runner cfg beams now plan st).1.failed = []
    ∧ (execute blake3 cmdRun penv runner cfg beams now plan st).2 = st
    ∧ (∀ n, n ∈ (execute blake3 cmdRun penv runner cfg beams now plan st).1.executed
        ↔ n ∈ plan.join ∧ drySkip blake3 cmdRun penv cfg beams st n = false)
    ∧ (∀ n, n ∈ (execute blake3 cmdRun penv runner cfg beams now plan st).1.skipped
        ↔ n ∈ plan.join ∧ drySkip blake3 cmdRun penv cfg beams st n = true) := by
  have h := executeLevels_dry blake3 cmdRun penv runner cfg beams now st hdry plan
    ExecReport.empty rfl hex
  unfold execute
  rw [h]
  refine ⟨rfl, rfl, ?_, ?_⟩ <;> intro n <;>
    simp [ExecReport.empty, List.mem_filter] <;> tauto

/-- Witness for C5_theorem: a one-beam dry-run plan with no condition and
a cold cache — the beam lands in executed positively via the iff. -/
theorem C5_theorem_witness :
    ((⟨".", true, true⟩ : ExecCfg).dry_run = true)
    ∧ (∀ n ∈ ([["a"]] : List (List String)).join,
        ∃ beam, List.lookup n [("a", Beam.new "a")] = some beam
          ∧ ∀ c, beam.condition = some c → condPure c = true)
    ∧ ((execute (fun _ => "h") (fun st _ _ _ => (.ok ⟨0, "", ""⟩, st)) [] ⟨".", []⟩
        ⟨".", true, true⟩ [("a", Beam.new "a")] 0 [["a"]] ⟨[], [], 0⟩).1.failed = []
      ∧ (execute (fun _ => "h") (fun st _ _ _ => (.ok ⟨0, "", ""⟩, st)) [] ⟨".", []⟩
        ⟨".", true, true⟩ [("a", Beam.new "a")] 0 [["a"]] ⟨[], [], 0⟩).2 = ⟨[], [], 0⟩
      ∧ (∀ n, n ∈ (execute (fun _ => "h") (fun st _ _ _ => (.ok ⟨0, "", ""⟩, st)) [] ⟨".", []⟩
          ⟨".", true, true⟩ [("a", Beam.new "a")] 0 [["a"]] ⟨[], [], 0⟩).1.executed
            ↔ n ∈ ([["a"]] : List (List String)).join
              ∧ drySkip (fun _ => "h") (fun st _ _ _ => (.ok ⟨0, "", ""⟩, st)) []
                  ⟨".", true, true⟩ [("a", Beam.new "a")] ⟨[], [], 0⟩ n = false)
      ∧ (∀ n, n ∈ (execute (fun _ => "h") (fun st _ _ _ => (.ok ⟨0, "", ""⟩, st)) [] ⟨".", []⟩
          ⟨".", true, true⟩ [("a", Beam.new "a")] 0 [["a"]] ⟨[], [], 0⟩).1.skipped
            ↔ n ∈ ([["a"]] : List (List String)).join
              ∧ drySkip (fun _ => "h") (fun st _ _ _ => (.ok ⟨0, "", ""⟩, st)) []
                  ⟨".", true, true⟩ [("a", Beam.new "a")] ⟨[], [], 0⟩ n = true)) := by
  have hex : ∀ n ∈ ([["a"]] : List (List String)).join,
      ∃ beam, List.lookup n [("a", Beam.new "a")] = some beam
        ∧ ∀ c, beam.condition = some c → condPure c = true := by
    intro n hn
    have hn2 : n = "a" := by
      simpa using hn
    subst hn2
    exact ⟨Beam.new "a", rfl, fun c hc => by cases hc⟩
  exact ⟨rfl, hex, C5_theorem (fun _ => "h") (fun st _ _ _ => (.ok ⟨0, "", ""⟩, st)) []
    ⟨".", []⟩ ⟨".", true, true⟩ [("a", Beam.new "a")] 0 [["a"]] ⟨[], [], 0⟩ rfl hex⟩

/-! ### C8 — fail-fast across levels -/

theorem processBeam_shape (blake3 : List Nat → String) (cmdRun : CmdOracle)
    (penv : List (String × String)) (runner : CommandRunner) (cfg : ExecCfg)
    (beams : List (String × Beam)) (now : Nat) (report : ExecReport) (st : EState)
    (n : String) :
    ∃ st2,
      processBeam blake3 cmdRun penv runner cfg beams now (report, st) n
        = ({ report with executed := report.executed ++ [n] }, st2)
      ∨ processBeam blake3 cmdRun penv runner cfg beams now (report, st) n
        = ({ report with skipped := report.skipped ++ [n] }, st2)
      ∨ ∃ msg, processBeam blake3 cmdRun penv runner cfg beams now (report, st) n
        = ({ report with failed := report.failed ++ [(n, msg)] }, st2) := by
  rw [processBeam_eq]
  rcases hE : execute_beam_inner blake3 cmdRun penv runner cfg beams now n st with ⟨res, st2⟩
  cases res with
  | ok r =>
      cases r with
      | executed => exact ⟨st2, Or.inl rfl⟩
      | skipped reason => exact ⟨st2, Or.inr (Or.inl rfl)⟩
  | error e => exact ⟨st2, Or.inr (Or.inr ⟨e.toMessage, rfl⟩)⟩

theorem processLevel_shape (blake3 : List Nat → String) (cmdRun : CmdOracle)
    (penv : List (String × String)) (runner : CommandRunner) (cfg : ExecCfg)
    (beams : List (String × Beam)) (now : Nat) :
    ∀ (level : List String) (report : ExecReport) (st : EState),
    ∃ E S F st2,
      processLevel blake3 cmdRun penv runner cfg beams now level (report, st)
        = ({ executed := report.executed ++ E, skipped := report.skipped ++ S,
             failed := report.failed ++ F }, st2)
      ∧ (∀ m, E.count m + S.count m + (F.map Prod.fst).count m = level.count m) := by
  intro level
  induction level with
  | nil =>
      intro report st
      refine ⟨[], [], [], st, ?_, by simp⟩
      simp [processLevel]
  | cons n level2 ih =>
      intro report st
      obtain ⟨st1, hcase⟩ := processBeam_shape blake3 cmdRun penv runner cfg beams now
        report st n
      have hPL : processLevel blake3 cmdRun penv runner cfg beams now (n :: level2)
          (report, st) = processLevel blake3 cmdRun penv runner cfg beams now level2
            (processBeam blake3 cmdRun penv runner cfg beams now (report, st) n) := rfl
      rcases hcase with hpb | hpb | ⟨msg, hpb⟩
      · obtain ⟨E, S, F, st2, hrun, hcount⟩ := ih
          { report with executed := report.executed ++ [n] } st1
        refine ⟨n :: E, S, F, st2, ?_, ?_⟩
        · rw [hPL, hpb, hrun]
          simp
        · intro m
          have := hcount m
          simp only [List.count_cons]
          omega
      · obtain ⟨E, S, F, st2, hrun, hcount⟩ := ih
          { report with skipped := report.skipped ++ [n] } st1
        refine ⟨E, n :: S, F, st2, ?_, ?_⟩
        · rw [hPL, hpb, hrun]
          simp
        · intro m
          have := hcount m
          simp only [List.count_cons]
          omega
      · obtain ⟨E, S, F, st2, hrun, hcount⟩ := ih
          { report with failed := report.failed ++ [(n, msg)] } st1
        refine ⟨E, S, (n, msg) :: F, st2, ?_, ?_⟩
        · rw [hPL, hpb, hrun]
          simp
        · intro m
          have := hcount m
          simp only [List.count_cons, List.map_cons]
          omega

theorem executeLevels_stop (blake3 : List Nat → String) (cmdRun : CmdOracle)
    (penv : List (String × String)) (runner : CommandRunner) (cfg : ExecCfg)
    (beams : List (String × Beam)) (now : Nat) (rest : List (List String))
    (acc : ExecReport × EState) (h : acc.1.failed ≠ []) :
    executeLevels blake3 cmdRun penv runner cfg beams now rest acc = acc := by
  cases rest with
  | nil => rfl
  | cons l r =>
      show (if acc.1.failed ≠ [] then acc
        else executeLevels blake3 cmdRun penv runner cfg beams now r
          (processLevel blake3 cmdRun penv runner cfg beams now l acc)) = acc
      rw [if_pos h]

theorem mem_join_take {α : Type} {x : α} {l : List (List α)} {k : Nat}
    (h : x ∈ (l.take k).join) : x ∈ l.join := by
  rw [List.mem_join] at h ⊢
  obtain ⟨a, ha, hx⟩ := h
  exact ⟨a, List.mem_of_mem_take ha, hx⟩

theorem executeLevels_shape (blake3 : List Nat → String) (cmdRun : CmdOracle)
    (penv : List (String × String)) (runner : CommandRunner) (cfg : ExecCfg)
    (beams : List (String × Beam)) (now : Nat) :
    ∀ (plan : List (List String)) (report : ExecReport) (st : EState),
    report.failed = [] → (plan.join).Nodup →
    ∃ k, k ≤ plan.length ∧ ∃ E S F st2,
      executeLevels blake3 cmdRun penv runner cfg beams now plan (report, st)
        = ({ executed := report.executed ++ E, skipped := report.skipped ++ S,
             failed := F }, st2)
      ∧ (∀ m, E.count m + S.count m + (F.map Prod.fst).count m
          = ((plan.take k).join).count m)
      ∧ (k < plan.length → F ≠ [])
      ∧ (∀ p ∈ F, p.1 ∈ (plan.take k).join ∧ p.1 ∉ ((plan.take (k - 1)).join)) := by
  intro plan
  induction plan with
  | nil =>
      intro report st hf _
      refine ⟨0, le_rfl, [], [], [], st, ?_, by simp, by simp, by simp⟩
      show (report, st) = _
      rw [← hf]
      simp
  | cons level rest ih =>
      intro report st hf hnd
      obtain ⟨E1, S1, F1, st1, hrun1, hcount1⟩ :=
        processLevel_shape blake3 cmdRun penv runner cfg beams now level report st
      have h1 : executeLevels blake3 cmdRun penv runner cfg beams now (level :: rest)
            (report, st)
          = executeLevels blake3 cmdRun penv runner cfg beams now rest
            (processLevel blake3 cmdRun penv runner cfg beams now level (report, st)) := by
        show (if report.failed ≠ [] then _ else _) = _
        rw [if_neg (by simp [hf])]
      by_cases hF1 : F1 = []
      · subst hF1
        have hf1 : ({ executed := report.executed ++ E1,
                      skipped := report.skipped ++ S1,
                      failed := report.failed ++ [] } : ExecReport).failed = [] := by
          simp [hf]
        have hnd' : (rest.join).Nodup := by
          simp only [List.join_cons] at hnd
          exact hnd.of_append_right
        obtain ⟨k, hk, E2, S2, F2, st2, hrun2, hcount2, hkF, hFloc⟩ := ih _ st1 hf1 hnd'
        refine ⟨k + 1, by simpa using Nat.succ_le_succ hk, E1 ++ E2, S1 ++ S2, F2, st2,
          ?_, ?_, ?_, ?_⟩
        · rw [h1, hrun1, hrun2]
          simp [List.append_assoc]
        · intro m
          have t1 := hcount1 m
          have t2 := hcount2 m
          simp only [List.map_nil, List.count_nil, List.take_succ_cons, List.join_cons,
            List.count_append] at t1 t2 ⊢
          have hjoin : List.count m (List.take k rest).flatten
              = List.count m (List.take k rest).join := rfl
          omega
        · intro hlen
          exact hkF (by simpa using Nat.lt_of_succ_lt_succ hlen)
        · intro p hp
          obtain ⟨hin, hnotin⟩ := hFloc p hp
          constructor
          · simp only [List.take_succ_cons, List.join_cons, List.mem_append]
            exact Or.inr hin
          · cases k with
            | zero => simp at hin
            | succ k2 =>
                simp only [Nat.add_sub_cancel, List.take_succ_cons, List.join_cons,
                  List.mem_append]
                rintro (hL | hR)
                · have hmem : p.1 ∈ rest.join := mem_join_take hin
                  have hdisj : List.Disjoint level rest.join := by
                    apply List.disjoint_of_nodup_append
                    simpa [List.join_cons] using hnd
                  exact hdisj hL hmem
                · exact hnotin (by simpa using hR)
      · refine ⟨1, by simp, E1, S1, F1, st1, ?_, ?_, ?_, ?_⟩
        · rw [h1, hrun1, executeLevels_stop]
          · rw [hf]
            simp
          · simpa [hf] using hF1
        · intro m
          have t1 := hcount1 m
          simpa using t1
        · intro _
          exact hF1
        · intro p hp
          refine ⟨?_, by simp⟩
          have hmem : p.1 ∈ List.map Prod.fst F1 := List.mem_map_of_mem Prod.fst hp
          have hpos : 0 < (F1.map Prod.fst).count p.1 := List.count_pos_iff_mem.mpr hmem
          have t1 := hcount1 p.1
          have : 0 < level.count p.1 := by omega
          have hmem2 : p.1 ∈ level := List.count_pos_iff_mem.mp this
          simpa using hmem2


/-- C8: fail-fast across levels.  For every run of execute over a
duplicate-free plan there is a cut point k: the report's executed, skipped
and failed lists together contain each beam of the first k levels exactly
once; no beam of a level at index ≥ k is started (it appears in none of the
three lists); processing stops before the end of the plan only because a
failure was recorded; and every failure belongs to the last processed
level, whose beams all ran to completion. -/
theorem C8_theorem (blake3 : List Nat → String) (cmdRun : CmdOracle)
    (penv : List (String × String)) (runner : CommandRunner) (cfg : ExecCfg)
    (beams : List (String × Beam)) (now : Nat) (plan : List (List String))
    (st : EState) (hnd : (plan.join).Nodup) :
    ∃ k rep st2, k ≤ plan.length
      ∧ execute blake3 cmdRun penv runner cfg beams now plan st = (rep, st2)
      ∧ (∀ m, List.count m rep.executed + List.count m rep.skipped
          + List.count m (rep.failed.map Prod.fst) = List.count m ((plan.take k).join))
      ∧ (∀ i, i < plan.length → k ≤ i → ∀ m ∈ plan.getD i [],
          m ∉ rep.executed ∧ m ∉ rep.skipped ∧ m ∉ rep.failed.map Prod.fst)
      ∧ (k < plan.length → rep.failed ≠ [])
      ∧ (∀ p ∈ rep.failed, p.1 ∈ (plan.take k).join
          ∧ p.1 ∉ ((plan.take (k - 1)).join)) := by
  obtain ⟨k, hk, E, S, F, st2, hrun, hcount, hkF, hFloc⟩ :=
    executeLevels_shape blake3 cmdRun penv runner cfg beams now plan ExecReport.empty st
      rfl hnd
  refine ⟨k, { executed := E, skipped := S, failed := F }, st2, hk, ?_, ?_, ?_, hkF, hFloc⟩
  · unfold execute
    rw [hrun]
    simp [ExecReport.empty]
  · intro m
    simpa using hcount m
  · intro i hi hki m hm
    have hmem : m ∈ (plan.drop k).join := by
      refine List.mem_join.mpr ⟨plan.getD i [], ?_, hm⟩
      have hik : i - k < (plan.drop k).length := by
        rw [List.length_drop]
        omega
      have heq : plan.getD i [] = (plan.drop k).getD (i - k) [] := by
        rw [List.getD_eq_getElem?_getD, List.getD_eq_getElem?_getD, List.getElem?_drop,
          Nat.add_sub_cancel' hki]
      rw [heq, List.getD_eq_getElem _ _ hik]
      exact List.getElem_mem hik
    have hdisj : List.Disjoint ((plan.take k).join) ((plan.drop k).join) := by
      apply List.disjoint_of_nodup_append
      rw [← List.join_append, List.take_append_drop]
      exact hnd
    have hnot : m ∉ (plan.take k).join := fun hmm => hdisj hmm hmem
    have hzero : List.count m ((plan.take k).join) = 0 := List.count_eq_zero.mpr hnot
    have hc := hcount m
    have hE : List.count m E = 0 := by omega
    have hS : List.count m S = 0 := by omega
    have hF : List.count m (F.map Prod.fst) = 0 := by omega
    exact ⟨by simpa using List.count_eq_zero.mp hE,
      by simpa using List.count_eq_zero.mp hS,
      by simpa using List.count_eq_zero.mp hF⟩


/-- Witness for C8_theorem: a two-level plan [["a"], ["b"]] where beam "a"
runs the command "false", which the oracle fails with exit code 1, so the
run stops before level ["b"]. -/
theorem C8_theorem_witness :
    (([["a"], ["b"]] : List (List String)).join.Nodup)
    ∧ (∃ k rep st2, k ≤ ([["a"], ["b"]] : List (List String)).length
      ∧ execute (fun _ => "h")
          (fun st c _ _ => (.ok ⟨if c = "false" then 1 else 0, "", ""⟩, st)) [] ⟨".", []⟩
          ⟨".", false, false⟩
          [("a", { Beam.new "a" with run := some (RunBlock.from_strings ["false"]) }),
            ("b", Beam.new "b")] 0 [["a"], ["b"]] ⟨[], [], 0⟩ = (rep, st2)
      ∧ (∀ m, List.count m rep.executed + List.count m rep.skipped
          + List.count m (rep.failed.map Prod.fst)
          = List.count m ((([["a"], ["b"]] : List (List String)).take k).join))
      ∧ (∀ i, i < ([["a"], ["b"]] : List (List String)).length → k ≤ i →
          ∀ m ∈ ([["a"], ["b"]] : List (List String)).getD i [],
          m ∉ rep.executed ∧ m ∉ rep.skipped ∧ m ∉ rep.failed.map Prod.fst)
      ∧ (k < ([["a"], ["b"]] : List (List String)).length → rep.failed ≠ [])
      ∧ (∀ p ∈ rep.failed, p.1 ∈ (([["a"], ["b"]] : List (List String)).take k).join
          ∧ p.1 ∉ ((([["a"], ["b"]] : List (List String)).take (k - 1)).join))) :=
  ⟨by decide, C8_theorem (fun _ => "h")
    (fun st c _ _ => (.ok ⟨if c = "false" then 1 else 0, "", ""⟩, st)) [] ⟨".", []⟩
    ⟨".", false, false⟩
    [("a", { Beam.new "a" with run := some (RunBlock.from_strings ["false"]) }),
      ("b", Beam.new "b")] 0 [["a"], ["b"]] ⟨[], [], 0⟩ (by decide)⟩


/-! ### C2 — parallel_levels -/

theorem placeAt_length : ∀ (ls : List (List String)) (k : Nat) (n : String),
    (placeAt ls k n).length = max ls.length (k + 1) := by
  intro ls
  induction ls with
  | nil =>
      intro k n
      induction k with
      | zero => simp [placeAt]
      | succ k2 ih =>
          simp only [placeAt, List.length_cons, List.length_nil, ih]
          omega
  | cons l ls ih =>
      intro k n
      cases k with
      | zero =>
          simp only [placeAt, List.length_cons]
          omega
      | succ k2 =>
          simp only [placeAt, List.length_cons, List.length_nil, ih]
          omega

theorem placeAt_getD_self : ∀ (ls : List (List String)) (k : Nat) (n : String),
    (placeAt ls k n).getD k [] = ls.getD k [] ++ [n] := by
  intro ls
  induction ls with
  | nil =>
      intro k n
      induction k with
      | zero => simp [placeAt]
      | succ k2 ih => simpa [placeAt] using ih
  | cons l ls ih =>
      intro k n
      cases k with
      | zero => simp [placeAt]
      | succ k2 => simpa [placeAt] using ih k2 n

theorem placeAt_getD_ne : ∀ (ls : List (List String)) (k : Nat) (n : String) (j : Nat),
    j ≠ k → (placeAt ls k n).getD j [] = ls.getD j [] := by
  intro ls
  induction ls with
  | nil =>
      intro k
      induction k with
      | zero =>
          intro n j hj
          cases j with
          | zero => cases hj rfl
          | succ j2 => simp [placeAt]
      | succ k2 ih =>
          intro n j hj
          cases j with
          | zero => simp [placeAt]
          | succ j2 =>
              have h2 := ih n j2 (by omega)
              simpa [placeAt] using h2
  | cons l ls ih =>
      intro k n j hj
      cases k with
      | zero =>
          cases j with
          | zero => cases hj rfl
          | succ j2 => simp [placeAt]
      | succ k2 =>
          cases j with
          | zero => simp [placeAt]
          | succ j2 =>
              have h2 := ih k2 n j2 (by omega)
              simpa [placeAt] using h2

theorem placeAt_join_perm : ∀ (ls : List (List String)) (k : Nat) (n : String),
    ((placeAt ls k n).join).Perm (ls.join ++ [n]) := by
  intro ls
  induction ls with
  | nil =>
      intro k n
      induction k with
      | zero => simp [placeAt]
      | succ k2 ih => simpa [placeAt] using ih
  | cons l ls ih =>
      intro k n
      cases k with
      | zero =>
          simp only [placeAt, List.join_cons]
          have h2 : l ++ ([n] ++ ls.join) = (l ++ [n]) ++ ls.join := by
            simp [List.append_assoc]
          have h3 : ([n] ++ ls.join).Perm (ls.join ++ [n]) :=
            @List.perm_append_comm _ [n] ls.join
          have h4 := h3.append_left l
          rw [h2] at h4
          simpa [List.append_assoc] using h4
      | succ k2 =>
          simp only [placeAt, List.join_cons]
          have h4 := (ih k2 n).append_left l
          simpa [List.append_assoc] using h4

theorem lookup_cons_eq {β : Type} (a : String) (v : β) (l : List (String × β)) :
    List.lookup a ((a, v) :: l) = some v := by
  simp [List.lookup]

theorem lookup_cons_ne {β : Type} (a n : String) (v : β) (l : List (String × β))
    (h : a ≠ n) : List.lookup a ((n, v) :: l) = List.lookup a l := by
  have hb : (a == n) = false := by
    simp [h]
  simp [List.lookup, hb]

theorem exists_lookup_of_mem_keys {β : Type} (a : String) (l : List (String × β))
    (h : a ∈ l.map Prod.fst) : ∃ v, List.lookup a l = some v := by
  induction l with
  | nil => simp at h
  | cons p l ih =>
      rcases p with ⟨n, v⟩
      by_cases han : a = n
      · subst han
        exact ⟨v, lookup_cons_eq a v l⟩
      · rw [lookup_cons_ne a n v l han]
        refine ih ?_
        simp only [List.map_cons, List.mem_cons] at h
        rcases h with h | h
        · exact absurd h han
        · exact h

theorem mem_keys_of_lookup {β : Type} (a : String) (l : List (String × β)) (v : β)
    (h : List.lookup a l = some v) : a ∈ l.map Prod.fst := by
  induction l with
  | nil => simp [List.lookup] at h
  | cons p l ih =>
      rcases p with ⟨n, w⟩
      by_cases han : a = n
      · subst han
        simp
      · rw [lookup_cons_ne a n w l han] at h
        simp [ih h]

theorem le_of_mem_max? {x M : Nat} {l : List Nat} (h : x ∈ l) (hM : l.max? = some M) :
    x ≤ M := by
  rw [List.max?_eq_some_iff] at hM
  · exact hM.2 x h
  · exact fun a => le_refl a
  · exact fun a b => max_choice a b
  · exact fun a b c => max_le_iff

theorem maxDepLevel_congr (g : BeamGraph) (bl1 bl2 : List (String × Nat)) (n : String)
    (h : ∀ d ∈ depsOf g n, List.lookup d bl1 = List.lookup d bl2) :
    maxDepLevel g bl1 n = maxDepLevel g bl2 n := by
  unfold maxDepLevel
  rw [List.filterMap_congr h]


theorem mem_getD_lt_length {i : Nat} {b : String} {L : List (List String)}
    (hb : b ∈ L.getD i []) : i < L.length := by
  by_contra hle
  push_neg at hle
  rw [List.getD_eq_default _ _ (by omega)] at hb
  simp at hb

theorem plStep_inv (g : BeamGraph) (pre : List String) (s : PLState) (n : String)
    (hInv : PLInv g pre s) (hn : n ∉ pre) (hself : n ∉ depsOf g n)
    (hfresh : ∀ b ∈ pre, n ∉ depsOf g b) :
    PLInv g (pre ++ [n]) (plStep g s n) := by
  obtain ⟨hkeys, hperm, hbl, hlb, hrec⟩ := hInv
  have hmemb : ∀ b (v : Nat), List.lookup b s.beam_levels = some v → b ∈ pre := by
    intro b v hv
    have h1 := mem_keys_of_lookup b s.beam_levels v hv
    rw [hkeys, List.mem_reverse] at h1
    exact h1
  have hjoin_mem : ∀ i, ∀ b ∈ s.levels.getD i [], b ∈ pre := by
    intro i b hb
    have hi := mem_getD_lt_length hb
    refine hperm.mem_iff.mp ?_
    refine List.mem_join.mpr ⟨s.levels.getD i [], ?_, hb⟩
    rw [List.getD_eq_getElem _ _ hi]
    exact List.getElem_mem hi
  show PLInv g (pre ++ [n])
    { levels := placeAt s.levels (maxDepLevel g s.beam_levels n) n,
      beam_levels := (n, maxDepLevel g s.beam_levels n) :: s.beam_levels }
  refine ⟨?_, ?_, ?_, ?_, ?_⟩
  · simp [hkeys]
  · exact (placeAt_join_perm _ _ _).trans (hperm.append_right [n])
  · intro b k' hlook
    by_cases hbn : b = n
    · subst hbn
      rw [lookup_cons_eq] at hlook
      obtain rfl : maxDepLevel g s.beam_levels b = k' := by
        simpa using hlook
      constructor
      · rw [placeAt_length]
        omega
      · rw [placeAt_getD_self]
        simp
    · rw [lookup_cons_ne _ _ _ _ hbn] at hlook
      obtain ⟨hk', hmem⟩ := hbl b k' hlook
      constructor
      · rw [placeAt_length]
        omega
      · by_cases hkk : k' = maxDepLevel g s.beam_levels n
        · rw [hkk, placeAt_getD_self]
          rw [← hkk]
          exact List.mem_append_left _ hmem
        · rw [placeAt_getD_ne _ _ _ _ hkk]
          exact hmem
  · intro i hi b hbmem
    by_cases hik : i = maxDepLevel g s.beam_levels n
    · subst hik
      rw [placeAt_getD_self] at hbmem
      rcases List.mem_append.mp hbmem with hold | hnew
      · have hpre := hjoin_mem _ b hold
        have hbn : b ≠ n := fun h => hn (h ▸ hpre)
        rw [lookup_cons_ne _ _ _ _ hbn]
        exact hlb _ (mem_getD_lt_length hold) b hold
      · have hbn : b = n := by simpa using hnew
        subst hbn
        rw [lookup_cons_eq]
    · rw [placeAt_getD_ne _ _ _ _ hik] at hbmem
      have hpre := hjoin_mem _ b hbmem
      have hbn : b ≠ n := fun h => hn (h ▸ hpre)
      rw [lookup_cons_ne _ _ _ _ hbn]
      exact hlb _ (mem_getD_lt_length hbmem) b hbmem
  · intro b k' hlook
    by_cases hbn : b = n
    · subst hbn
      rw [lookup_cons_eq] at hlook
      obtain rfl : maxDepLevel g s.beam_levels b = k' := by
        simpa using hlook
      refine maxDepLevel_congr g _ _ b ?_
      intro d hd
      have hdn : d ≠ b := fun h => hself (h ▸ hd)
      rw [lookup_cons_ne _ _ _ _ hdn]
    · rw [lookup_cons_ne _ _ _ _ hbn] at hlook
      have hbpre := hmemb b k' hlook
      rw [hrec b k' hlook]
      refine maxDepLevel_congr g _ _ b ?_
      intro d hd
      have hdn : d ≠ n := fun h => hfresh b hbpre (h ▸ hd)
      rw [lookup_cons_ne _ _ _ _ hdn]


theorem plFold_inv (g : BeamGraph) (target : String) (order : List String)
    (htopo : IsTopoOrder g target order) :
    ∀ (suf pre : List String) (s : PLState), order = pre ++ suf → PLInv g pre s →
    PLInv g order (suf.foldl (plStep g) s) := by
  intro suf
  induction suf with
  | nil =>
      intro pre s hord hInv
      rw [hord]
      simpa using hInv
  | cons n rest ih =>
      intro pre s hord hInv
      have hnd := htopo.nodup
      rw [hord] at hnd
      have hn : n ∉ pre := by
        have hd := List.disjoint_of_nodup_append hnd
        intro hc
        exact hd hc (by simp)
      have hnord : n ∈ order := by
        rw [hord]
        simp
      have hself : n ∉ depsOf g n := by
        intro hc
        have h2 := htopo.before n hnord n hc hnord
        omega
      have hidxn : List.indexOf n order = pre.length := by
        rw [hord, List.indexOf_append_of_not_mem hn]
        simp
      have hfresh : ∀ b ∈ pre, n ∉ depsOf g b := by
        intro b hb hc
        have hbord : b ∈ order := by
          rw [hord]
          exact List.mem_append_left _ hb
        have hlt := htopo.before b hbord n hc hnord
        have hidxb : List.indexOf b order = List.indexOf b pre := by
          rw [hord]
          exact List.indexOf_append_of_mem hb
        have hblt : List.indexOf b pre < pre.length := List.indexOf_lt_length.mpr hb
        omega
      have hstep := plStep_inv g pre s n hInv hn hself hfresh
      have hord2 : order = (pre ++ [n]) ++ rest := by
        rw [hord]
        simp
      have h3 := ih (pre ++ [n]) (plStep g s n) hord2 hstep
      simpa [List.foldl_cons] using h3

theorem plRun_inv (g : BeamGraph) (target : String) (order : List String)
    (htopo : IsTopoOrder g target order) :
    PLInv g order (plRun g order) := by
  have hbase : PLInv g [] ⟨[], []⟩ := by
    refine ⟨rfl, by simp, ?_, ?_, ?_⟩
    · intro b k hlook
      simp [List.lookup] at hlook
    · intro i hi
      simp at hi
    · intro b k hlook
      simp [List.lookup] at hlook
  exact plFold_inv g target order htopo order [] ⟨[], []⟩ (by simp) hbase

theorem join_indexOf_lt_of_bucket_lt (L : List (List String)) (a b : String)
    (i j : Nat) (hnd : L.join.Nodup) (ha : a ∈ L.getD i []) (hb : b ∈ L.getD j [])
    (hij : i < j) :
    List.indexOf a L.join < List.indexOf b L.join := by
  have hiL : i < L.length := mem_getD_lt_length ha
  have hjL : j < L.length := mem_getD_lt_length hb
  have hsplit : L.join = (L.take j).join ++ (L.drop j).join := by
    rw [← List.join_append, List.take_append_drop]
  have haX : a ∈ (L.take j).join := by
    refine List.mem_join.mpr ⟨L.getD i [], ?_, ha⟩
    have hitake : i < (L.take j).length := by
      simp only [List.length_take]
      omega
    have hgt : (L.take j).getD i [] = L.getD i [] := by
      rw [List.getD_eq_getElem _ _ hitake, List.getD_eq_getElem _ _ hiL]
      exact List.getElem_take L
    rw [← hgt, List.getD_eq_getElem _ _ hitake]
    exact List.getElem_mem hitake
  have hbY : b ∈ (L.drop j).join := by
    refine List.mem_join.mpr ⟨L.getD j [], ?_, hb⟩
    have hdrop : (L.drop j).getD 0 [] = L.getD j [] := by
      rw [List.getD_eq_getElem?_getD, List.getD_eq_getElem?_getD, List.getElem?_drop]
      simp
    have hlen0 : 0 < (L.drop j).length := by
      rw [List.length_drop]
      omega
    rw [← hdrop, List.getD_eq_getElem _ _ hlen0]
    exact List.getElem_mem hlen0
  rw [hsplit] at hnd ⊢
  have hdisj := List.disjoint_of_nodup_append hnd
  have hbX : b ∉ (L.take j).join := fun hc => hdisj hc hbY
  rw [List.indexOf_append_of_mem haX, List.indexOf_append_of_not_mem hbX]
  have h4 : List.indexOf a (L.take j).join < ((L.take j).join).length :=
    List.indexOf_lt_length.mpr haX
  omega


/-- C2: given a topological order of the required set of a target (the
characterisation of what topological_order returns for an acyclic graph),
parallel_levels partitions the required set: the concatenation of its
buckets enumerates, without duplicates, exactly the target plus its
transitive dependencies; each processed beam's recorded level satisfies the
recurrence level(b) = max(level(d) for d in deps(b)) + 1, or 0 when no
dependency has a recorded level; each bucket holds exactly the beams whose
recorded level is its index; the concatenation is a valid topological
order (every dependency is listed strictly before its dependent); and no
two beams within one bucket are connected by a dependency edge. -/
theorem C2_theorem (g : BeamGraph) (target : String) (order : List String)
    (htopo : IsTopoOrder g target order) :
    (∀ b, b ∈ (parallel_levels g order).join ↔ Requires g target b)
    ∧ ((parallel_levels g order).join).Nodup
    ∧ (∀ b ∈ order, List.lookup b (plRun g order).beam_levels
        = some (maxDepLevel g (plRun g order).beam_levels b))
    ∧ (∀ i, i < (parallel_levels g order).length →
        ∀ b ∈ (parallel_levels g order).getD i [],
          List.lookup b (plRun g order).beam_levels = some i)
    ∧ (∀ b ∈ (parallel_levels g order).join, ∀ d ∈ depsOf g b,
        List.indexOf d ((parallel_levels g order).join)
          < List.indexOf b ((parallel_levels g order).join))
    ∧ (∀ i, i < (parallel_levels g order).length →
        ∀ b ∈ (parallel_levels g order).getD i [],
        ∀ d ∈ (parallel_levels g order).getD i [], d ∉ depsOf g b) := by
  have inv := plRun_inv g target order htopo
  have hpl : parallel_levels g order = (plRun g order).levels := rfl
  have hmem_ord : ∀ b, b ∈ (parallel_levels g order).join ↔ b ∈ order := by
    intro b
    rw [hpl]
    exact inv.joinperm.mem_iff
  have hlook_of_ord : ∀ b ∈ order,
      ∃ k, List.lookup b (plRun g order).beam_levels = some k := by
    intro b hb
    refine exists_lookup_of_mem_keys b _ ?_
    rw [inv.keys, List.mem_reverse]
    exact hb
  have hlt : ∀ b kb d kd, List.lookup b (plRun g order).beam_levels = some kb →
      List.lookup d (plRun g order).beam_levels = some kd →
      d ∈ depsOf g b → kd < kb := by
    intro b kb d kd hkb hkd hdep
    have hkbr := inv.recur b kb hkb
    have hmemfm : kd ∈ (depsOf g b).filterMap
        (fun d2 => List.lookup d2 (plRun g order).beam_levels) :=
      List.mem_filterMap.mpr ⟨d, hdep, hkd⟩
    unfold maxDepLevel at hkbr
    cases hM : ((depsOf g b).filterMap
        (fun d2 => List.lookup d2 (plRun g order).beam_levels)).max? with
    | none =>
        rw [List.max?_eq_none_iff] at hM
        rw [hM] at hmemfm
        simp at hmemfm
    | some M =>
        rw [hM] at hkbr
        have h6 : kb = M + 1 := hkbr
        have h5 := le_of_mem_max? hmemfm hM
        omega
  refine ⟨?_, ?_, ?_, ?_, ?_, ?_⟩
  · intro b
    exact (hmem_ord b).trans (htopo.mem_iff b)
  · rw [hpl]
    exact inv.joinperm.nodup_iff.mpr htopo.nodup
  · intro b hb
    obtain ⟨kb, hkb⟩ := hlook_of_ord b hb
    have h2 := inv.recur b kb hkb
    rw [hkb, h2]
  · intro i hi b hb
    rw [hpl] at hi hb
    exact inv.lookup_of_bucket i hi b hb
  · intro b hbj d hdep
    have hb_ord : b ∈ order := (hmem_ord b).mp hbj
    have hreq_b : Requires g target b := (htopo.mem_iff b).mp hb_ord
    have hreq_d : Requires g target d := hreq_b.tail hdep
    have hd_ord : d ∈ order := (htopo.mem_iff d).mpr hreq_d
    obtain ⟨kb, hkb⟩ := hlook_of_ord b hb_ord
    obtain ⟨kd, hkd⟩ := hlook_of_ord d hd_ord
    obtain ⟨hkbl, hbbuck⟩ := inv.bucket_of_lookup b kb hkb
    obtain ⟨hkdl, hdbuck⟩ := inv.bucket_of_lookup d kd hkd
    have hnd : ((plRun g order).levels.join).Nodup :=
      inv.joinperm.nodup_iff.mpr htopo.nodup
    rw [hpl]
    exact join_indexOf_lt_of_bucket_lt (plRun g order).levels d b kd kb hnd
      hdbuck hbbuck (hlt b kb d kd hkb hkd hdep)
  · intro i hi b hb d hd hdep
    rw [hpl] at hi hb hd
    have h1 := inv.lookup_of_bucket i hi b hb
    have h2 := inv.lookup_of_bucket i hi d hd
    have h3 := hlt b i d i h1 h2 hdep
    omega


theorem requires_mem_of_closed (g : BeamGraph) (t : String) (S : List String)
    (hclosed : ∀ x ∈ S, ∀ d ∈ depsOf g x, d ∈ S) :
    ∀ b, Requires g t b → t ∈ S → b ∈ S := by
  intro b h
  induction h with
  | refl => exact fun ht => ht
  | tail h1 h2 ih =>
      intro ht
      exact hclosed _ (ih ht) _ h2

/-- Witness for C2_theorem: the three-beam chain clean ← lint ← build with
build also depending directly on clean, target "build", topological order
["clean", "lint", "build"]. -/
theorem C2_theorem_witness :
    (IsTopoOrder [("build", ["lint", "clean"]), ("lint", ["clean"]), ("clean", [])] "build" (["clean", "lint", "build"] : List String))
    ∧ ((∀ b, b ∈ (parallel_levels [("build", ["lint", "clean"]), ("lint", ["clean"]), ("clean", [])] (["clean", "lint", "build"] : List String)).join ↔ Requires [("build", ["lint", "clean"]), ("lint", ["clean"]), ("clean", [])] "build" b)
    ∧ ((parallel_levels [("build", ["lint", "clean"]), ("lint", ["clean"]), ("clean", [])] (["clean", "lint", "build"] : List String)).join).Nodup
    ∧ (∀ b ∈ (["clean", "lint", "build"] : List String), List.lookup b (plRun [("build", ["lint", "clean"]), ("lint", ["clean"]), ("clean", [])] (["clean", "lint", "build"] : List String)).beam_levels
        = some (maxDepLevel [("build", ["lint", "clean"]), ("lint", ["clean"]), ("clean", [])] (plRun [("build", ["lint", "clean"]), ("lint", ["clean"]), ("clean", [])] (["clean", "lint", "build"] : List String)).beam_levels b))
    ∧ (∀ i, i < (parallel_levels [("build", ["lint", "clean"]), ("lint", ["clean"]), ("clean", [])] (["clean", "lint", "build"] : List String)).length →
        ∀ b ∈ (parallel_levels [("build", ["lint", "clean"]), ("lint", ["clean"]), ("clean", [])] (["clean", "lint", "build"] : List String)).getD i [],
          List.lookup b (plRun [("build", ["lint", "clean"]), ("lint", ["clean"]), ("clean", [])] (["clean", "lint", "build"] : List String)).beam_levels = some i)
    ∧ (∀ b ∈ (parallel_levels [("build", ["lint", "clean"]), ("lint", ["clean"]), ("clean", [])] (["clean", "lint", "build"] : List String)).join, ∀ d ∈ depsOf [("build", ["lint", "clean"]), ("lint", ["clean"]), ("clean", [])] b,
        List.indexOf d ((parallel_levels [("build", ["lint", "clean"]), ("lint", ["clean"]), ("clean", [])] (["clean", "lint", "build"] : List String)).join)
          < List.indexOf b ((parallel_levels [("build", ["lint", "clean"]), ("lint", ["clean"]), ("clean", [])] (["clean", "lint", "build"] : List String)).join))
    ∧ (∀ i, i < (parallel_levels [("build", ["lint", "clean"]), ("lint", ["clean"]), ("clean", [])] (["clean", "lint", "build"] : List String)).length →
        ∀ b ∈ (parallel_levels [("build", ["lint", "clean"]), ("lint", ["clean"]), ("clean", [])] (["clean", "lint", "build"] : List String)).getD i [],
        ∀ d ∈ (parallel_levels [("build", ["lint", "clean"]), ("lint", ["clean"]), ("clean", [])] (["clean", "lint", "build"] : List String)).getD i [], d ∉ depsOf [("build", ["lint", "clean"]), ("lint", ["clean"]), ("clean", [])] b)) := by
  have htopo : IsTopoOrder [("build", ["lint", "clean"]), ("lint", ["clean"]), ("clean", [])] "build" (["clean", "lint", "build"] : List String) := by
    refine ⟨by decide, ?_, by decide⟩
    intro b
    constructor
    · intro hb
      have hb2 : b = "clean" ∨ b = "lint" ∨ b = "build" := by
        simpa using hb
      rcases hb2 with rfl | rfl | rfl
      · exact Relation.ReflTransGen.tail Relation.ReflTransGen.refl (by decide)
      · exact Relation.ReflTransGen.tail Relation.ReflTransGen.refl (by decide)
      · exact Relation.ReflTransGen.refl
    · intro hb
      exact requires_mem_of_closed _ "build" _ (by decide) b hb (by decide)
  exact ⟨htopo, C2_theorem _ _ _ htopo⟩


end Aurora
